import Mathlib

/-!
Verification of the text-parsing core of the `readlogs` repository.

The Rust sources (`src/parsers/common.rs`, `src/parsers/ios.rs`,
`src/model.rs`) are shallowly embedded here.  Strings are `List Char`;
a nom-style parser over `&str` becomes a function
`List Char → PRes α`, where `PRes.ok rest val` is nom's
`Ok((rest, val))`, `PRes.fail` is a recoverable nom error, and
`PRes.crash` marks a Rust panic (an `unwrap()` on a failed conversion,
or a panicking `chrono` constructor).  Combinators keep nom's names and
semantics; repository functions keep their source names.
-/

set_option maxRecDepth 10000

/-- Result of running an embedded nom parser: success with the
unconsumed remainder, a recoverable parse error, or a Rust panic. -/
inductive PRes (α : Type) where
  | ok (rest : List Char) (val : α)
  | fail
  | crash
deriving Repr, DecidableEq

/-- Shallow embedding of a nom parser over `&str`. -/
def Parser (α : Type) : Type := List Char → PRes α

/-- Horizontal space recognized by nom's `space0` (space and tab). -/
def isHSpace (c : Char) : Bool := c = ' ' || c = '\t'

/-- Whitespace recognized by nom's `multispace0` (space, tab, CR, LF). -/
def isMSpace (c : Char) : Bool := c = ' ' || c = '\t' || c = '\r' || c = '\n'

/-- Characters stripped by Rust's `str::trim` (the Unicode `White_Space`
property, as used by `char::is_whitespace`). -/
def isRustWs (c : Char) : Bool :=
  c = ' ' || c = '\t' || c = '\n' || c = '\r' ||
  c.toNat = 0x0B || c.toNat = 0x0C || c.toNat = 0x85 || c.toNat = 0xA0 ||
  c.toNat = 0x1680 || (0x2000 ≤ c.toNat && c.toNat ≤ 0x200A) ||
  c.toNat = 0x2028 || c.toNat = 0x2029 || c.toNat = 0x202F ||
  c.toNat = 0x205F || c.toNat = 0x3000

/-- Rust `str::trim_start` on a character list. -/
def trimStart (l : List Char) : List Char := l.dropWhile isRustWs

/-- Rust `str::trim_end` on a character list. -/
def trimEnd (l : List Char) : List Char := (l.reverse.dropWhile isRustWs).reverse

/-- Rust `str::trim` on a character list. -/
def trimR (l : List Char) : List Char := trimEnd (trimStart l)

/-- Helper for nom's `tag`: strip the literal `t` from the front of the
input, or report that it is not a prefix. -/
def tagGo : List Char → List Char → Option (List Char)
  | [], input => some input
  | _ :: _, [] => none
  | a :: as, b :: bs => if a = b then tagGo as bs else none

/-- Embedding of nom's `tag`: match an exact literal prefix. -/
def tagP (t : List Char) : Parser (List Char) := fun input =>
  match tagGo t input with
  | some r => .ok r t
  | none => .fail

/-- Match a maximal nonempty run of characters satisfying `p`
(the common core of nom's `is_not`, `is_a` and `digit1`). -/
def run1 (p : Char → Bool) : Parser (List Char) := fun input =>
  match input.takeWhile p with
  | [] => .fail
  | c :: cs => .ok (input.dropWhile p) (c :: cs)

/-- Embedding of nom's `is_not`: a maximal nonempty run of characters
outside `bad`. -/
def isNotP (bad : List Char) : Parser (List Char) :=
  run1 (fun c => decide (c ∉ bad))

/-- Embedding of nom's `is_a`: a maximal nonempty run of characters
inside `set`. -/
def isAP (set : List Char) : Parser (List Char) :=
  run1 (fun c => decide (c ∈ set))

/-- Embedding of nom's `digit1`: a maximal nonempty run of ASCII
decimal digits. -/
def digit1 : Parser (List Char) := run1 (fun c => c.isDigit)

/-- Embedding of nom's `space0`: strip any horizontal space. -/
def space0 : Parser (List Char) := fun input =>
  .ok (input.dropWhile isHSpace) (input.takeWhile isHSpace)

/-- Embedding of nom's `multispace0`: strip any whitespace. -/
def multispace0 : Parser (List Char) := fun input =>
  .ok (input.dropWhile isMSpace) (input.takeWhile isMSpace)

/-- Embedding of nom's `newline`: match one line-feed character. -/
def newlineP : Parser Char := fun input =>
  match input with
  | '\n' :: r => .ok r '\n'
  | _ => .fail

/-- Embedding of nom's `eof`: succeed exactly at end of input. -/
def eofP : Parser (List Char) := fun input =>
  match input with
  | [] => .ok [] []
  | _ :: _ => .fail

/-- Embedding of nom's `take_until`: everything up to (excluding) the
first occurrence of the literal `t`; fail if `t` never occurs. -/
def takeUntilP (t : List Char) : Parser (List Char) := fun input =>
  match input with
  | [] => if (tagGo t []).isSome then .ok [] [] else .fail
  | c :: rest =>
    if (tagGo t (c :: rest)).isSome then .ok (c :: rest) []
    else
      match takeUntilP t rest with
      | .ok r v => .ok r (c :: v)
      | .fail => .fail
      | .crash => .crash

/-- Embedding of nom's `map`. -/
def mapP {α β : Type} (p : Parser α) (f : α → β) : Parser β := fun input =>
  match p input with
  | .ok r a => .ok r (f a)
  | .fail => .fail
  | .crash => .crash

/-- Embedding of nom's `value`. -/
def valueP {α β : Type} (v : β) (p : Parser α) : Parser β :=
  mapP p (fun _ => v)

/-- Embedding of nom's `opt`: turn failure into `none` without
consuming input. -/
def optP {α : Type} (p : Parser α) : Parser (Option α) := fun input =>
  match p input with
  | .ok r a => .ok r (some a)
  | .fail => .ok input none
  | .crash => .crash

/-- Embedding of nom's `peek`: run `p` without consuming input. -/
def peekP {α : Type} (p : Parser α) : Parser α := fun input =>
  match p input with
  | .ok _ a => .ok input a
  | .fail => .fail
  | .crash => .crash

/-- Embedding of nom's `not`: succeed (consuming nothing) exactly when
`p` fails. -/
def notP {α : Type} (p : Parser α) : Parser Unit := fun input =>
  match p input with
  | .ok _ _ => .fail
  | .fail => .ok input ()
  | .crash => .crash

/-- Embedding of nom's `verify`: succeed only when the output also
satisfies the boolean predicate. -/
def verifyP {α : Type} (p : Parser α) (f : α → Bool) : Parser α := fun input =>
  match p input with
  | .ok r a => if f a then .ok r a else .fail
  | .fail => .fail
  | .crash => .crash

/-- Embedding of nom's `alt` on two alternatives (nested for more). -/
def altP {α : Type} (p q : Parser α) : Parser α := fun input =>
  match p input with
  | .fail => q input
  | r => r

/-- Embedding of nom's `preceded`. -/
def precededP {α β : Type} (p : Parser α) (q : Parser β) : Parser β := fun input =>
  match p input with
  | .ok r _ => q r
  | .fail => .fail
  | .crash => .crash

/-- Embedding of nom's `terminated`. -/
def terminatedP {α β : Type} (p : Parser α) (q : Parser β) : Parser α := fun input =>
  match p input with
  | .ok r a =>
    match q r with
    | .ok r' _ => .ok r' a
    | .fail => .fail
    | .crash => .crash
  | .fail => .fail
  | .crash => .crash

/-- Embedding of nom's `delimited`. -/
def delimitedP {α β γ : Type} (p : Parser α) (q : Parser β) (r : Parser γ) :
    Parser β :=
  precededP p (terminatedP q r)

/-- Embedding of nom's `separated_pair`. -/
def sepPairP {α β γ : Type} (p : Parser α) (s : Parser β) (q : Parser γ) :
    Parser (α × γ) := fun input =>
  match p input with
  | .ok r1 a =>
    match s r1 with
    | .ok r2 _ =>
      match q r2 with
      | .ok r3 c => .ok r3 (a, c)
      | .fail => .fail
      | .crash => .crash
    | .fail => .fail
    | .crash => .crash
  | .fail => .fail
  | .crash => .crash

/-- Fuel-driven loop of nom's `many0`.  Like nom, the loop errors out
when the inner parser succeeds without consuming anything. -/
def many0Go {α : Type} (p : Parser α) : Nat → Parser (List α)
  | 0, _ => .fail
  | fuel + 1, input =>
    match p input with
    | .fail => .ok input []
    | .crash => .crash
    | .ok r a =>
      if r = input then .fail
      else
        match many0Go p fuel r with
        | .ok r' as => .ok r' (a :: as)
        | .fail => .fail
        | .crash => .crash

/-- Embedding of nom's `many0`: the fuel `input.length + 1` is enough
for any parser that consumes input on success. -/
def many0P {α : Type} (p : Parser α) : Parser (List α) := fun input =>
  many0Go p (input.length + 1) input

/-- Embedding of nom's `many1`: one occurrence followed by `many0`. -/
def many1P {α : Type} (p : Parser α) : Parser (List α) := fun input =>
  match p input with
  | .ok r a =>
    match many0P p r with
    | .ok r' as => .ok r' (a :: as)
    | .fail => .fail
    | .crash => .crash
  | .fail => .fail
  | .crash => .crash

/-- Fuel-driven loop of nom's `separated_list1`, after the first
element has been parsed.  Like nom, the loop errors out when the
separator succeeds without consuming anything; when the element parser
fails after a separator, the separator is not consumed. -/
def sepList1Go {α β : Type} (sep : Parser β) (p : Parser α) :
    Nat → Parser (List α)
  | 0, _ => .fail
  | fuel + 1, input =>
    match sep input with
    | .fail => .ok input []
    | .crash => .crash
    | .ok r1 _ =>
      if r1 = input then .fail
      else
        match p r1 with
        | .fail => .ok input []
        | .crash => .crash
        | .ok r2 a =>
          match sepList1Go sep p fuel r2 with
          | .ok r' as => .ok r' (a :: as)
          | .fail => .fail
          | .crash => .crash

/-- Embedding of nom's `separated_list1`. -/
def sepList1P {α β : Type} (sep : Parser β) (p : Parser α) :
    Parser (List α) := fun input =>
  match p input with
  | .ok r a =>
    match sepList1Go sep p (r.length + 1) r with
    | .ok r' as => .ok r' (a :: as)
    | .fail => .fail
    | .crash => .crash
  | .fail => .fail
  | .crash => .crash

/-- Fuel-driven loop of nom's `many_till`: try the stopping parser
first at every position; while it fails, run the element parser. -/
def manyTillGo {α β : Type} (p : Parser α) (stop : Parser β) :
    Nat → Parser (List α × β)
  | 0, _ => .fail
  | fuel + 1, input =>
    match stop input with
    | .ok r b => .ok r ([], b)
    | .crash => .crash
    | .fail =>
      match p input with
      | .fail => .fail
      | .crash => .crash
      | .ok r a =>
        match manyTillGo p stop fuel r with
        | .ok r' (as, b) => .ok r' (a :: as, b)
        | .fail => .fail
        | .crash => .crash

/-- Embedding of nom's `many_till`. -/
def manyTillP {α β : Type} (p : Parser α) (stop : Parser β) :
    Parser (List α × β) := fun input =>
  manyTillGo p stop (input.length + 1) input

/-- Run a parser exactly `k` times in sequence, collecting the outputs.
This is the proof-side notion of "`k` consecutive well-formed records";
it is related to `many0P` by `many0_of_iterate` below. -/
def iterateP {α : Type} (p : Parser α) : Nat → Parser (List α)
  | 0 => fun input => .ok input []
  | k + 1 => fun input =>
    match p input with
    | .ok r a =>
      match iterateP p k r with
      | .ok r' as => .ok r' (a :: as)
      | .fail => .fail
      | .crash => .crash
    | .fail => .fail
    | .crash => .crash

/-! ## Data model (`src/parsers/mod.rs` is not in the excerpt; the value
types below follow the spec's §3 data model and the uses in
`common.rs` / `ios.rs`). -/

/-- One entry of a per-region counter list (spec §3, used by
`common.rs::bucket`). -/
structure Bucket where
  country_code : List Char
  value : List Char
deriving Repr, DecidableEq

/-- Decoded value of an info entry: free text or a bucketed list
(spec §3, used by `common.rs::key_maybe_enabled_value`). -/
inductive Value where
  | Generic (s : List Char)
  | BucketedFlag (bs : List Bucket)
deriving Repr, DecidableEq

/-- One decoded configuration line (spec §3, produced by
`common.rs::key_maybe_enabled_value`). -/
inductive InfoEntry where
  | KeyValue (key : List Char) (value : Value)
  | KeyEnabledValue (key : List Char) (enabled : Bool) (value : Option Value)
deriving Repr, DecidableEq

/-- Modelled from the spec: the ordered severity enumeration `LogLevel`
(its declaration lives outside the excerpted sources).  The iOS dialect
maps five glyphs to five levels (spec §8). -/
inductive LogLevel where
  | Trace
  | Debug
  | Info
  | Warn
  | Error
deriving Repr, DecidableEq

/-- Structured source-location tag of an iOS record
(`ios.rs::LogEntryMetadata`). -/
structure LogEntryMetadata where
  file : List Char
  line : List Char
  symbol : List Char
deriving Repr, DecidableEq

/-- Modelled from the spec: the platform-keyed metadata union
(spec §3 `PlatformMetadata`); only the iOS variant is needed by the
excerpted sources. -/
inductive PlatformMetadata where
  | Ios (m : Option LogEntryMetadata)
deriving Repr, DecidableEq

/-- One decoded log record (spec §3 `LogEntry`); `timestamp` holds the
rendered `DateTime<Utc>` string. -/
structure LogEntry where
  timestamp : List Char
  level : Option LogLevel
  meta : PlatformMetadata
  message : List Char
deriving Repr, DecidableEq

/-- Recursive named section tree (spec §3 `Section<T>`). -/
inductive Sec (α : Type) where
  | mk (name : List Char) (content : List α) (subsections : List (Sec α))

/-- Parse result for one file (spec §3 `Content`). -/
structure Content where
  information : List (Sec InfoEntry)
  logs : List (Sec LogEntry)

/-! ## Embedding of `src/parsers/common.rs` -/

/-- Embedding of `common.rs::ws`: run `inner` with surrounding
horizontal space stripped. -/
def ws {α : Type} (inner : Parser α) : Parser α :=
  delimitedP space0 inner space0

/-- Embedding of `common.rs::section_header`: a name delimited by runs
of `=` decoration, trimmed. -/
def section_header : Parser (List Char) :=
  delimitedP (many1P (tagP ['=']))
    (ws (mapP (takeUntilP ['=']) trimR))
    (many1P (tagP ['=']))

/-- Embedding of `common.rs::bucket`: `country_code ":" digits`. -/
def bucket : Parser Bucket :=
  mapP (sepPairP (isNotP [':', '\n']) (tagP [':']) digit1)
    (fun cv => { country_code := cv.1, value := cv.2 })

/-- Embedding of `common.rs::bucketed_flag`: a comma-separated list of
buckets, followed (peeked, not consumed) by a newline or end of input. -/
def bucketed_flag : Parser (List Bucket) :=
  terminatedP (sepList1P (tagP [',']) bucket)
    (peekP (altP (tagP ['\n']) eofP))

/-- The `parse_key` sub-rule of `common.rs::key_maybe_enabled_value`:
everything before the first `": "`, which must not contain a newline. -/
def kmevKey : Parser (List Char) :=
  terminatedP (verifyP (takeUntilP [':', ' ']) (fun key => decide ('\n' ∉ key)))
    (tagP [':', ' '])

/-- The `parse_enabled` sub-rule of `common.rs::key_maybe_enabled_value`. -/
def kmevEnabled : Parser Bool :=
  altP (valueP true (tagP (("enabled").toList)))
    (valueP false (tagP (("disabled").toList)))

/-- The `parse_value` sub-rule of `common.rs::key_maybe_enabled_value`:
a bucketed list, or else generic trimmed text up to a newline or pipe. -/
def kmevValue : Parser Value :=
  altP (mapP bucketed_flag Value.BucketedFlag)
    (mapP (isNotP ['\n', '|']) (fun s => Value.Generic (trimR s)))

/-- Embedding of `common.rs::key_maybe_enabled_value`.  The final
`match` mirrors the closure passed to `map`: when no `enabled` marker
was parsed the Rust code calls `v.unwrap()`, which panics (`crash`)
when the optional value is absent. -/
def key_maybe_enabled_value : Parser InfoEntry := fun input =>
  match peekP (notP (tagP ['-', '-'])) input with
  | .ok i1 _ =>
    match kmevKey i1 with
    | .ok i2 k =>
      match optP kmevEnabled i2 with
      | .ok i3 en =>
        match delimitedP space0 (optP kmevValue)
            (peekP (altP (tagP ['\n']) (altP (tagP ['|']) eofP))) i3 with
        | .ok i4 v =>
          match en with
          | some e => .ok i4 (.KeyEnabledValue (trimR k) e v)
          | none =>
            match v with
            | some w => .ok i4 (.KeyValue (trimR k) w)
            | none => .crash
        | .fail => .fail
        | .crash => .crash
      | .fail => .fail
      | .crash => .crash
    | .fail => .fail
    | .crash => .crash
  | .fail => .fail
  | .crash => .crash

/-- Numeric value of a run of ASCII digits. -/
def digitsToNat (s : List Char) : Nat :=
  s.foldl (fun acc c => acc * 10 + (c.toNat - ('0').toNat)) 0

/-- Rust `str::parse::<i32>` on a run of decimal digits: fails (and the
caller's `unwrap` panics) when the value exceeds `i32::MAX`. -/
def parseI32 (s : List Char) : Option Int :=
  if digitsToNat s ≤ 2147483647 then some (digitsToNat s : Int) else none

/-- Rust `str::parse::<u32>` on a run of decimal digits: fails (and the
caller's `unwrap` panics) when the value exceeds `u32::MAX`. -/
def parseU32 (s : List Char) : Option Nat :=
  if digitsToNat s ≤ 4294967295 then some (digitsToNat s) else none

/-- Proleptic-Gregorian leap year (as in `chrono`). -/
def isLeapYear (y : Int) : Bool :=
  y % 4 = 0 && (decide (y % 100 ≠ 0) || y % 400 = 0)

/-- Day count of a month (as in `chrono`). -/
def daysInMonth (y : Int) (m : Nat) : Nat :=
  match m with
  | 1 => 31 | 2 => if isLeapYear y then 29 else 28 | 3 => 31 | 4 => 30
  | 5 => 31 | 6 => 30 | 7 => 31 | 8 => 31 | 9 => 30 | 10 => 31
  | 11 => 30 | 12 => 31
  | _ => 0

/-- Validity domain of `chrono`'s `NaiveDate::from_ymd`, which panics
outside it. -/
def validYmd (y : Int) (m d : Nat) : Bool :=
  -262144 ≤ y && y ≤ 262143 && 1 ≤ m && m ≤ 12 && 1 ≤ d && d ≤ daysInMonth y m

/-- Validity domain of `chrono`'s `and_hms_milli`, which panics outside
it (milliseconds up to 1999 encode leap seconds). -/
def validHmsMilli (h mi s ms : Nat) : Bool :=
  h < 24 && mi < 60 && s < 60 && ms ≤ 1999

/-- Calendar timestamp produced by the date-time recognizer (the
embedding of `chrono::NaiveDateTime` at the precision the code uses;
`milli` is 0 when the grammar had no millisecond field). -/
structure NaiveDateTime where
  year : Int
  month : Nat
  day : Nat
  hour : Nat
  minute : Nat
  second : Nat
  milli : Nat
deriving Repr, DecidableEq

/-- The inner `tuple` of `common.rs::naive_date_time`: the digit runs
for month, day, hour, minute and second with their separators. -/
def mdhmsDigits (ymd_separator ymd_hms_separator hms_separator : List Char) :
    Parser (List Char × List Char × List Char × List Char × List Char) := fun input =>
  match digit1 input with
  | .ok r1 mo =>
    match precededP (tagP ymd_separator) digit1 r1 with
    | .ok r2 dy =>
      match precededP (tagP ymd_hms_separator) digit1 r2 with
      | .ok r3 hh =>
        match precededP (tagP hms_separator) digit1 r3 with
        | .ok r4 mi =>
          match precededP (tagP hms_separator) digit1 r4 with
          | .ok r5 ss => .ok r5 (mo, dy, hh, mi, ss)
          | .fail => .fail
          | .crash => .crash
        | .fail => .fail
        | .crash => .crash
      | .fail => .fail
      | .crash => .crash
    | .fail => .fail
    | .crash => .crash
  | .fail => .fail
  | .crash => .crash

/-- The trailing-literal step of `common.rs::naive_date_time`: consume
the optional `ending` literal after the timestamp. -/
def ndtEnding (ending : Option (List Char)) (dt : NaiveDateTime) :
    Parser NaiveDateTime := fun rem =>
  match ending with
  | none => .ok rem dt
  | some e =>
    match tagP e rem with
    | .ok rem2 _ => .ok rem2 dt
    | .fail => .fail
    | .crash => .crash

/-- The part of `common.rs::naive_date_time` after the year is known:
month through second digits, the panicking `parse().unwrap()`s and
`chrono` constructors (in source order), the optional millisecond
field, and the optional ending literal. -/
def ndtAfterYear (ymd_separator ymd_hms_separator hms_separator : List Char)
    (millisecond_separator ending : Option (List Char)) (year : Int) :
    Parser NaiveDateTime := fun rem =>
  match mdhmsDigits ymd_separator ymd_hms_separator hms_separator rem with
  | .ok rem2 (mo, dy, hh, mi, ss) =>
    match parseU32 mo with
    | none => .crash
    | some month =>
      match parseU32 dy with
      | none => .crash
      | some day =>
        if validYmd year month day then
          match millisecond_separator with
          | some msSep =>
            match precededP (tagP msSep) digit1 rem2 with
            | .ok rem3 msDs =>
              match parseU32 hh, parseU32 mi, parseU32 ss, parseU32 msDs with
              | some h, some minu, some s, some ms =>
                if validHmsMilli h minu s ms then
                  ndtEnding ending ⟨year, month, day, h, minu, s, ms⟩ rem3
                else .crash
              | _, _, _, _ => .crash
            | .fail => .fail
            | .crash => .crash
          | none =>
            match parseU32 hh, parseU32 mi, parseU32 ss with
            | some h, some minu, some s =>
              if validHmsMilli h minu s 0 then
                ndtEnding ending ⟨year, month, day, h, minu, s, 0⟩ rem2
              else .crash
            | _, _, _ => .crash
        else .crash
  | .fail => .fail
  | .crash => .crash

/-- Embedding of `common.rs::naive_date_time`.  Every `parse().unwrap()`
of the Rust source becomes a `crash` on conversion failure, and the
panicking `chrono` constructors `from_ymd` / `and_hms(_milli)` become
`crash` outside their validity domains, in source order. -/
def naive_date_time (assumed_year : Option Int)
    (ymd_separator ymd_hms_separator hms_separator : List Char)
    (millisecond_separator ending : Option (List Char)) :
    Parser NaiveDateTime := fun input =>
  match assumed_year with
  | some year =>
    ndtAfterYear ymd_separator ymd_hms_separator hms_separator
      millisecond_separator ending year input
  | none =>
    match terminatedP digit1 (tagP ymd_separator) input with
    | .ok rem ds =>
      match parseI32 ds with
      | some year =>
        ndtAfterYear ymd_separator ymd_hms_separator hms_separator
          millisecond_separator ending year rem
      | none => .crash
    | .fail => .fail
    | .crash => .crash

/-- The line capture of `common.rs::message`: one line (a nonempty
newline-free run, or everything up to a newline), with the terminating
newline consumed when present. -/
def lineChunk : Parser (List Char) :=
  terminatedP (altP (isNotP ['\n']) (takeUntilP ['\n'])) (optP newlineP)

/-- Embedding of `common.rs::message`: capture lines until the
`metadata` lookahead matches (peeked) or input is exhausted, joining the
captured lines with single newlines. -/
def message {O : Type} (metadata : Parser O) : Parser (List Char) :=
  mapP (manyTillP lineChunk
      (peekP (altP (valueP () metadata) (valueP () eofP))))
    (fun x => List.intercalate ['\n'] x.1)

/-! ## Embedding of `src/parsers/ios.rs` -/

/-- Digit list of a natural number. -/
def natDigits (n : Nat) : List Char := (toString n).toList

/-- Zero-pad a natural number to a width (as `chrono`'s `%Y`/`%m`/...). -/
def padNum (width n : Nat) : List Char :=
  List.replicate (width - (natDigits n).length) '0' ++ natDigits n

/-- Display of a `chrono::NaiveDateTime` (`%Y-%m-%d %H:%M:%S%.f`): the
fractional part is shown only when nonzero. -/
def renderNaive (dt : NaiveDateTime) : List Char :=
  (if dt.year < 0 then '-' :: padNum 4 (Int.toNat (-dt.year))
   else padNum 4 (Int.toNat dt.year))
  ++ '-' :: padNum 2 dt.month ++ '-' :: padNum 2 dt.day
  ++ ' ' :: padNum 2 dt.hour ++ ':' :: padNum 2 dt.minute
  ++ ':' :: padNum 2 dt.second
  ++ (if dt.milli = 0 then [] else '.' :: padNum 3 dt.milli)

/-- Display of `chrono::DateTime<Utc>` (naive part plus the `Utc`
offset name), as produced by `dt.to_string()` in `ios.rs::log_entry`. -/
def renderUtc (dt : NaiveDateTime) : List Char :=
  renderNaive dt ++ (" UTC").toList

/-- The glyph characters of `ios.rs::level`'s `is_a` set: the four
colored-heart code points and the variation selector of `❤️`. -/
def heartSet : List Char :=
  [Char.ofNat 0x1F499, Char.ofNat 0x1F49A, Char.ofNat 0x1F49B,
   Char.ofNat 0x1F9E1, Char.ofNat 0x2764, Char.ofNat 0xFE0F]

/-- Modelled from the spec: `LogLevel`'s `FromStr` (declared outside the
excerpted sources) — the fixed bijective glyph table of spec §4.6/§8,
anchored by the repository tests (`💚` ↦ Debug, `💛` ↦ Info,
`❤️` ↦ Error); any other string is rejected, so the `unwrap` in
`ios.rs::level` panics on it. -/
def levelOfGlyphs (s : List Char) : Option LogLevel :=
  if s = [Char.ofNat 0x1F499] then some .Trace
  else if s = [Char.ofNat 0x1F49A] then some .Debug
  else if s = [Char.ofNat 0x1F49B] then some .Info
  else if s = [Char.ofNat 0x1F9E1] then some .Warn
  else if s = [Char.ofNat 0x2764, Char.ofNat 0xFE0F] then some .Error
  else none

namespace Ios

/-- Embedding of `ios.rs::level`: a run of glyph characters, decoded
via the severity table; the Rust `unwrap` panics on an undecodable run. -/
def level : Parser LogLevel := fun input =>
  match isAP heartSet input with
  | .ok r glyphs =>
    match levelOfGlyphs glyphs with
    | some l => .ok r l
    | none => .crash
  | .fail => .fail
  | .crash => .crash

/-- The bracketed structured tag of `ios.rs::metadata`: the payload of
its `opt(tuple((tag("["), ..., alt((tag("]:"), tag("] "))))))`. -/
def bracketTag : Parser LogEntryMetadata := fun input =>
  match tagP ['['] input with
  | .ok r1 _ =>
    match takeUntilP [':'] r1 with
    | .ok r2 file =>
      match tagP [':'] r2 with
      | .ok r3 _ =>
        match isNotP [' ', ']'] r3 with
        | .ok r4 line =>
          match space0 r4 with
          | .ok r5 _ =>
            match altP (verifyP (takeUntilP [']', ':']) (fun s => decide ('\n' ∉ s)))
                (verifyP (takeUntilP [']', ' ']) (fun s => decide ('\n' ∉ s))) r5 with
            | .ok r6 symbol =>
              match altP (tagP [']', ':']) (tagP [']', ' ']) r6 with
              | .ok r7 _ => .ok r7 ⟨file, line, symbol⟩
              | .fail => .fail
              | .crash => .crash
            | .fail => .fail
            | .crash => .crash
          | .fail => .fail
          | .crash => .crash
        | .fail => .fail
        | .crash => .crash
      | .fail => .fail
      | .crash => .crash
    | .fail => .fail
    | .crash => .crash
  | .fail => .fail
  | .crash => .crash

/-- Embedding of `ios.rs::metadata`: timestamp, optional severity
glyph, optional bracketed structured tag. -/
def metadata : Parser (NaiveDateTime × Option LogLevel × Option LogEntryMetadata) :=
  fun input =>
  match naive_date_time none ['/'] [' '] [':'] (some [':']) none input with
  | .ok r1 dt =>
    match space0 r1 with
    | .ok r2 _ =>
      match optP (terminatedP level space0) r2 with
      | .ok r3 lvl =>
        match optP bracketTag r3 with
        | .ok r4 meta => .ok r4 (dt, lvl, meta)
        | .fail => .fail
        | .crash => .crash
      | .fail => .fail
      | .crash => .crash
    | .fail => .fail
    | .crash => .crash
  | .fail => .fail
  | .crash => .crash

/-- Embedding of `ios.rs::log_entry`: metadata, horizontal space, then
a message body that stops where the next record's metadata would match. -/
def log_entry : Parser LogEntry := fun input =>
  match metadata input with
  | .ok r1 (dt, lvl, meta) =>
    match space0 r1 with
    | .ok r2 _ =>
      match message metadata r2 with
      | .ok r3 msg =>
        .ok r3 ⟨renderUtc dt, lvl, .Ios meta, msg⟩
      | .fail => .fail
      | .crash => .crash
    | .fail => .fail
    | .crash => .crash
  | .fail => .fail
  | .crash => .crash

/-- Embedding of `ios.rs::content`: skip leading whitespace, then
collect every consecutive log entry into one synthetic `Logs` section. -/
def content : Parser Content :=
  precededP multispace0 (mapP (many0P log_entry)
    (fun logs => ⟨[], [Sec.mk (("Logs").toList) logs []]⟩))

end Ios

/-! ## Embedding of the active-file selection in `src/model.rs`
(`update_inner`, `Msg::FinishedFetchBinary`). -/

/-- Modelled from the spec: the application identifiers of parsed log
file names (`AppId` is declared outside the excerpted sources; the spec
names a primary identifier and exactly two fallbacks, and `model.rs`
matches on these three variants). -/
inductive AppId where
  | Signal
  | NotificationServiceExtension
  | ShareAppExtension
deriving Repr, DecidableEq

/-- Modelled from the spec: a parsed log file name (declared outside
the excerpted sources); only its `app_id` and its position in the
name-ordered key sequence matter to the selection logic. -/
structure LogFilename where
  name : List Char
  app_id : AppId
deriving Repr, DecidableEq

/-- Outcome of the `Msg::FinishedFetchBinary` selection step: a chosen
active file, the `ensure!`-raised error for an empty batch, or the
panic of the final `unwrap`. -/
inductive FetchOutcome where
  | selected (f : LogFilename)
  | invalidBatch
  | panicked
deriving Repr, DecidableEq

/-- Embedding of the closure `last_for_app_id` in `model.rs`: the last
key (in the given name-ordered key sequence) with the given identifier. -/
def last_for_app_id (files : List LogFilename) (app_id : AppId) :
    Option LogFilename :=
  (files.filter (fun k => decide (k.app_id = app_id))).getLast?

/-- Embedding of the active-file selection in `model.rs`
(`Msg::FinishedFetchBinary`): `ensure!` rejects an empty batch, then
the last Signal buffer is chosen, else the last
NotificationServiceExtension buffer, else the last ShareAppExtension
buffer, else the final `unwrap` panics.  `files` is the name-ordered
key sequence of the `BTreeMap`. -/
def select_active_filename (files : List LogFilename) : FetchOutcome :=
  if files.isEmpty then .invalidBatch
  else
    match last_for_app_id files .Signal with
    | some f => .selected f
    | none =>
      match last_for_app_id files .NotificationServiceExtension with
      | some f => .selected f
      | none =>
        match last_for_app_id files .ShareAppExtension with
        | some f => .selected f
        | none => .panicked

/-! ## Basic lemmas about the primitive combinators -/

theorem dropWhile_head_not (p : Char → Bool) :
    ∀ l : List Char, l.dropWhile p = [] ∨
      ∃ c t, l.dropWhile p = c :: t ∧ p c = false := by
  intro l
  induction l with
  | nil => exact Or.inl rfl
  | cons c t ih =>
    by_cases h : p c
    · simpa [List.dropWhile_cons, h] using ih
    · exact Or.inr ⟨c, t, by simp [List.dropWhile_cons, h], by simpa using h⟩

theorem takeWhile_append_sat (p : Char → Bool) (w r : List Char)
    (hw : ∀ c ∈ w, p c = true)
    (hr : r = [] ∨ ∃ c t, r = c :: t ∧ p c = false) :
    (w ++ r).takeWhile p = w ∧ (w ++ r).dropWhile p = r := by
  induction w with
  | nil =>
    rcases hr with h | ⟨c, t, rfl, hc⟩
    · subst h; simp
    · simp [List.takeWhile_cons, List.dropWhile_cons, hc]
  | cons a w' ih =>
    have ha : p a = true := hw a (by simp)
    have := ih (fun c hc => hw c (by simp [hc]))
    simp [List.takeWhile_cons, List.dropWhile_cons, ha, this.1, this.2]

theorem dropWhile_append_sat (p : Char → Bool) (w r : List Char)
    (hw : ∀ c ∈ w, p c = true) :
    (w ++ r).dropWhile p = r.dropWhile p := by
  induction w with
  | nil => simp
  | cons a w' ih =>
    have ha : p a = true := hw a (by simp)
    simp [List.dropWhile_cons, ha, ih (fun c hc => hw c (by simp [hc]))]

theorem run1_eq (p : Char → Bool) (w r : List Char) (hw : w ≠ [])
    (hsat : ∀ c ∈ w, p c = true)
    (hr : r = [] ∨ ∃ c t, r = c :: t ∧ p c = false) :
    run1 p (w ++ r) = .ok r w := by
  obtain ⟨htw, hdw⟩ := takeWhile_append_sat p w r hsat hr
  unfold run1
  rw [htw, hdw]
  cases w with
  | nil => exact absurd rfl hw
  | cons a w' => rfl

theorem run1_sound (p : Char → Bool) (input r v : List Char)
    (h : run1 p input = .ok r v) :
    v ≠ [] ∧ (∀ c ∈ v, p c = true) ∧ input = v ++ r ∧
      (r = [] ∨ ∃ c t, r = c :: t ∧ p c = false) := by
  unfold run1 at h
  rcases htw : input.takeWhile p with _ | ⟨c, cs⟩ <;> rw [htw] at h
  · exact absurd h (by simp)
  · obtain ⟨h1, h2⟩ : input.dropWhile p = r ∧ (c :: cs : List Char) = v := by
      cases h; exact ⟨rfl, rfl⟩
    subst h1; subst h2
    refine ⟨by simp, ?_, ?_, dropWhile_head_not p input⟩
    · intro x hx
      have hx' : x ∈ input.takeWhile p := by rw [htw]; exact hx
      exact List.mem_takeWhile_imp hx'
    · rw [← htw]; exact (List.takeWhile_append_dropWhile p input).symm

theorem run1_fail (p : Char → Bool) (input : List Char)
    (h : input.takeWhile p = []) : run1 p input = .fail := by
  unfold run1; rw [h]

theorem tagGo_self_append (t r : List Char) : tagGo t (t ++ r) = some r := by
  induction t with
  | nil => rfl
  | cons a as ih => simp [tagGo, ih]

theorem tagGo_sound (t : List Char) :
    ∀ i r, tagGo t i = some r → i = t ++ r := by
  induction t with
  | nil => intro i r h; cases h; rfl
  | cons a as ih =>
    intro i r h
    cases i with
    | nil => exact absurd h (by simp [tagGo])
    | cons b bs =>
      by_cases hab : a = b
      · subst hab
        simp only [tagGo, if_pos rfl] at h
        simpa using ih bs r h
      · simp [tagGo, hab] at h

theorem tagGo_nil_none (t : List Char) (h : t ≠ []) : tagGo t [] = none := by
  cases t with
  | nil => exact absurd rfl h
  | cons a as => rfl

theorem tagGo_cons_ne (a b : Char) (as bs : List Char) (h : a ≠ b) :
    tagGo (a :: as) (b :: bs) = none := by
  simp [tagGo, h]

theorem tagP_self_append (t r : List Char) : tagP t (t ++ r) = .ok r t := by
  simp [tagP, tagGo_self_append]

theorem tagP_sound (t i r v : List Char) (h : tagP t i = .ok r v) :
    i = t ++ r ∧ v = t := by
  unfold tagP at h
  rcases hg : tagGo t i with _ | s <;> rw [hg] at h
  · exact absurd h (by simp)
  · obtain ⟨h1, h2⟩ : s = r ∧ t = v := by cases h; exact ⟨rfl, rfl⟩
    subst h1; subst h2
    exact ⟨tagGo_sound _ _ _ hg, rfl⟩

theorem tagP_of_tagGo_none (t i : List Char) (h : tagGo t i = none) :
    tagP t i = .fail := by
  simp [tagP, h]

theorem takeUntilP_sound (t : List Char) :
    ∀ input r v, takeUntilP t input = .ok r v →
      input = v ++ r ∧ (tagGo t r).isSome := by
  intro input
  induction input with
  | nil =>
    intro r v h
    unfold takeUntilP at h
    by_cases hg : (tagGo t ([] : List Char)).isSome
    · rw [if_pos hg] at h
      obtain ⟨h1, h2⟩ : ([] : List Char) = r ∧ ([] : List Char) = v := by
        cases h; exact ⟨rfl, rfl⟩
      subst h1; subst h2; exact ⟨rfl, hg⟩
    · rw [if_neg hg] at h; exact absurd h (by simp)
  | cons c rest ih =>
    intro r v h
    unfold takeUntilP at h
    by_cases hg : (tagGo t (c :: rest)).isSome
    · rw [if_pos hg] at h
      obtain ⟨h1, h2⟩ : c :: rest = r ∧ ([] : List Char) = v := by
        cases h; exact ⟨rfl, rfl⟩
      subst h1; subst h2; exact ⟨rfl, hg⟩
    · rw [if_neg hg] at h
      rcases hrec : takeUntilP t rest with ⟨r', v'⟩ | _ | _ <;> rw [hrec] at h
      · obtain ⟨h1, h2⟩ : r' = r ∧ c :: v' = v := by cases h; exact ⟨rfl, rfl⟩
        obtain ⟨hd, hs⟩ := ih r' v' hrec
        subst h1; subst h2
        exact ⟨by rw [hd]; rfl, hs⟩
      · exact absurd h (by simp)
      · exact absurd h (by simp)

theorem takeUntilP_complete (t : List Char) :
    ∀ a r, (tagGo t r).isSome →
      (∀ i, i < a.length → tagGo t (a.drop i ++ r) = none) →
      takeUntilP t (a ++ r) = .ok r a := by
  intro a
  induction a with
  | nil =>
    intro r hr _
    cases r with
    | nil => simp [takeUntilP, hr]
    | cons c rest => simp only [List.nil_append]; unfold takeUntilP; rw [if_pos hr]
  | cons x a' ih =>
    intro r hr ha
    have h0 : tagGo t (x :: (a' ++ r)) = none := by
      have h := ha 0 (by simp)
      simpa using h
    have hrec := ih r hr (fun i hi => by
      have h2 := ha (i + 1) (by simpa using Nat.succ_lt_succ hi)
      simpa using h2)
    show takeUntilP t (x :: (a' ++ r)) = .ok r (x :: a')
    unfold takeUntilP
    rw [if_neg (by rw [h0]; simp), hrec]

theorem takeUntilP_fail (t : List Char) :
    ∀ input, (∀ i, i ≤ input.length → tagGo t (input.drop i) = none) →
      takeUntilP t input = .fail := by
  intro input
  induction input with
  | nil =>
    intro h
    have := h 0 (by simp)
    simp only [List.drop_nil] at this
    simp [takeUntilP, this]
  | cons c rest ih =>
    intro h
    have h0 : tagGo t (c :: rest) = none := by simpa using h 0 (by simp)
    have hrec := ih (fun i hi => by
      have := h (i + 1) (by simpa using Nat.succ_le_succ hi)
      simpa using this)
    unfold takeUntilP
    rw [if_neg (by simp [h0]), hrec]

/-! ## Lemmas about the looping combinators -/

theorem many0Go_fail_head {α : Type} (p : Parser α) (input : List Char)
    (fuel : Nat) (hf : 0 < fuel) (h : p input = .fail) :
    many0Go p fuel input = .ok input [] := by
  cases fuel with
  | zero => exact absurd hf (by simp)
  | succ f => simp [many0Go, h]

theorem many0Go_of_iterate {α : Type} (p : Parser α)
    (hp : ∀ i r a, p i = .ok r a → r.length < i.length)
    (hnil : p [] = .fail) :
    ∀ K input es, iterateP p K input = .ok [] es →
      ∀ fuel, input.length < fuel → many0Go p fuel input = .ok [] es := by
  intro K
  induction K with
  | zero =>
    intro input es h fuel hf
    obtain ⟨h1, h2⟩ : input = [] ∧ ([] : List α) = es := by
      unfold iterateP at h; cases h; exact ⟨rfl, rfl⟩
    subst h1; subst h2
    exact many0Go_fail_head p [] fuel (by omega) hnil
  | succ k ih =>
    intro input es h fuel hf
    unfold iterateP at h
    split at h
    case _ r a hpi =>
      split at h
      case _ r' as hit =>
        obtain ⟨h1, h2⟩ : r' = [] ∧ a :: as = es := by
          refine ⟨?_, ?_⟩ <;> cases h <;> rfl
        subst h1; subst h2
        have hlt := hp input r a hpi
        cases fuel with
        | zero => exact absurd hf (by simp)
        | succ f =>
          have hrec := ih r as hit f (by omega)
          have hne : r ≠ input := fun he => by rw [he] at hlt; omega
          simp [many0Go, hpi, hne, hrec]
      case _ hit => exact absurd h (by simp)
      case _ hit => exact absurd h (by simp)
    case _ hpi => exact absurd h (by simp)
    case _ hpi => exact absurd h (by simp)

theorem many0Go_ne_fail {α : Type} (p : Parser α)
    (hp : ∀ i r a, p i = .ok r a → r.length < i.length) :
    ∀ fuel input, input.length < fuel → many0Go p fuel input ≠ .fail := by
  intro fuel
  induction fuel with
  | zero => intro input h; omega
  | succ f ih =>
    intro input hf
    rcases hpi : p input with ⟨r, a⟩ | _ | _
    · have hlt := hp input r a hpi
      have hne : r ≠ input := fun he => by rw [he] at hlt; omega
      have hrec := ih r (by omega)
      simp only [many0Go, hpi, if_neg hne]
      rcases hr : many0Go p f r with ⟨r', as⟩ | _ | _ <;> simp [hr]
      exact absurd hr hrec
    · simp [many0Go, hpi]
    · simp [many0Go, hpi]

theorem iterateP_length {α : Type} (p : Parser α) :
    ∀ K input r es, iterateP p K input = .ok r es → es.length = K := by
  intro K
  induction K with
  | zero =>
    intro input r es h
    obtain h2 : ([] : List α) = es := by unfold iterateP at h; cases h; rfl
    subst h2; rfl
  | succ k ih =>
    intro input r es h
    unfold iterateP at h
    split at h
    case _ r1 a hpi =>
      split at h
      case _ r' as hit =>
        obtain h2 : a :: as = es := by cases h; rfl
        subst h2
        simp [ih r1 r' as hit]
      case _ hit => exact absurd h (by simp)
      case _ hit => exact absurd h (by simp)
    case _ hpi => exact absurd h (by simp)
    case _ hpi => exact absurd h (by simp)

theorem manyTillGo_mono {α β : Type} (p : Parser α) (stop : Parser β)
    (hp : ∀ i r a, p i = .ok r a → r.length < i.length) :
    ∀ fuel1 fuel2 input, input.length < fuel1 → input.length < fuel2 →
      manyTillGo p stop fuel1 input = manyTillGo p stop fuel2 input := by
  intro fuel1
  induction fuel1 with
  | zero => intro fuel2 input h1 _; omega
  | succ f1 ih =>
    intro fuel2 input h1 h2
    cases fuel2 with
    | zero => omega
    | succ f2 =>
      simp only [manyTillGo]
      rcases hstop : stop input with ⟨r, b⟩ | _ | _ <;> simp only []
      rcases hpi : p input with ⟨r, a⟩ | _ | _ <;> simp only []
      have hlt := hp input r a hpi
      rw [ih f2 r (by omega) (by omega)]

theorem manyTillGo_stop {α β : Type} (p : Parser α) (stop : Parser β)
    (input r : List Char) (b : β) (fuel : Nat) (hf : 0 < fuel)
    (hstop : stop input = .ok r b) :
    manyTillGo p stop fuel input = .ok r ([], b) := by
  cases fuel with
  | zero => omega
  | succ f => simp [manyTillGo, hstop]

theorem manyTillGo_step {α β : Type} (p : Parser α) (stop : Parser β)
    (hp : ∀ i r a, p i = .ok r a → r.length < i.length)
    (input r : List Char) (a : α) (fuel : Nat) (hf : input.length < fuel)
    (hstop : stop input = .fail) (hpi : p input = .ok r a) :
    manyTillGo p stop fuel input =
      match manyTillGo p stop (r.length + 1) r with
      | .ok r' (as, b) => .ok r' (a :: as, b)
      | .fail => .fail
      | .crash => .crash := by
  cases fuel with
  | zero => omega
  | succ f =>
    have hlt := hp input r a hpi
    simp only [manyTillGo, hstop, hpi]
    rw [manyTillGo_mono p stop hp f (r.length + 1) r (by omega) (by omega)]
    rfl

/-! ## Specification-side shapes for bucketed lists (spec §4.4, §8) -/

/-- Specification-side well-formedness of one bucket segment
`code:digits`: the code is a non-empty run of characters other than `:`
and newline, the value a non-empty all-digit run. -/
def ValidBucket (b : Bucket) : Prop :=
  b.country_code ≠ [] ∧ (∀ c ∈ b.country_code, c ∉ ([':', '\n'] : List Char)) ∧
  b.value ≠ [] ∧ ∀ c ∈ b.value, c.isDigit = true

instance (b : Bucket) : Decidable (ValidBucket b) := by
  unfold ValidBucket; infer_instance

/-- Text of one bucket segment. -/
def renderBucket (b : Bucket) : List Char := b.country_code ++ ':' :: b.value

/-- Text of the `,`-prefixed continuation of a bucket list. -/
def renderBucketTail : List Bucket → List Char
  | [] => []
  | b :: rest => ',' :: renderBucket b ++ renderBucketTail rest

/-- Text of a comma-separated bucket list. -/
def renderBucketList : List Bucket → List Char
  | [] => []
  | b :: rest => renderBucket b ++ renderBucketTail rest

/-- The remainder starts with a newline or is the end of input (the set
the code's lookahead accepts). -/
def NlOrEof (r : List Char) : Prop := r = [] ∨ ∃ t, r = '\n' :: t

/-- The remainder set claimed by the spec: newline, pipe, or end of
input. -/
def NlPipeOrEof (r : List Char) : Prop :=
  r = [] ∨ (∃ t, r = '\n' :: t) ∨ ∃ t, r = '|' :: t

/-! Elimination lemmas for successful runs of the combinators. -/

theorem mapP_ok_elim {α β : Type} {p : Parser α} {f : α → β}
    {input r : List Char} {b : β} (h : mapP p f input = .ok r b) :
    ∃ a, p input = .ok r a ∧ b = f a := by
  unfold mapP at h
  split at h
  case _ r0 a heq =>
    simp only [PRes.ok.injEq] at h
    obtain ⟨h1, h2⟩ := h
    subst h1
    exact ⟨a, heq, h2.symm⟩
  case _ heq => exact absurd h (by simp)
  case _ heq => exact absurd h (by simp)

theorem sepPairP_ok_elim {α β γ : Type} {p : Parser α} {s : Parser β}
    {q : Parser γ} {input r : List Char} {v : α × γ}
    (h : sepPairP p s q input = .ok r v) :
    ∃ r1 r2 a bb c, p input = .ok r1 a ∧ s r1 = .ok r2 bb ∧
      q r2 = .ok r c ∧ v = (a, c) := by
  unfold sepPairP at h
  split at h
  case _ r1 a h1 =>
    split at h
    case _ r2 bb h2 =>
      split at h
      case _ r3 c h3 =>
        simp only [PRes.ok.injEq] at h
        obtain ⟨he1, he2⟩ := h
        subst he1
        exact ⟨r1, r2, a, bb, c, h1, h2, h3, he2.symm⟩
      case _ h3 => exact absurd h (by simp)
      case _ h3 => exact absurd h (by simp)
    case _ h2 => exact absurd h (by simp)
    case _ h2 => exact absurd h (by simp)
  case _ h1 => exact absurd h (by simp)
  case _ h1 => exact absurd h (by simp)

theorem terminatedP_ok_elim {α β : Type} {p : Parser α} {q : Parser β}
    {input r : List Char} {a : α} (h : terminatedP p q input = .ok r a) :
    ∃ r1 b, p input = .ok r1 a ∧ q r1 = .ok r b := by
  unfold terminatedP at h
  split at h
  case _ r1 a0 h1 =>
    split at h
    case _ r2 b h2 =>
      simp only [PRes.ok.injEq] at h
      obtain ⟨he1, he2⟩ := h
      subst he1; subst he2
      exact ⟨r1, b, h1, h2⟩
    case _ h2 => exact absurd h (by simp)
    case _ h2 => exact absurd h (by simp)
  case _ h1 => exact absurd h (by simp)
  case _ h1 => exact absurd h (by simp)

theorem precededP_ok_elim {α β : Type} {p : Parser α} {q : Parser β}
    {input r : List Char} {b : β} (h : precededP p q input = .ok r b) :
    ∃ r1 a, p input = .ok r1 a ∧ q r1 = .ok r b := by
  unfold precededP at h
  split at h
  case _ r1 a h1 => exact ⟨r1, a, h1, h⟩
  case _ h1 => exact absurd h (by simp)
  case _ h1 => exact absurd h (by simp)

theorem optP_ok_elim {α : Type} {p : Parser α} {input r : List Char}
    {v : Option α} (h : optP p input = .ok r v) :
    (v = none ∧ r = input ∧ p input = .fail) ∨
      ∃ a, v = some a ∧ p input = .ok r a := by
  unfold optP at h
  split at h
  case _ r0 a h1 =>
    simp only [PRes.ok.injEq] at h
    obtain ⟨he1, he2⟩ := h
    subst he1
    exact Or.inr ⟨a, he2.symm, h1⟩
  case _ h1 =>
    simp only [PRes.ok.injEq] at h
    obtain ⟨he1, he2⟩ := h
    exact Or.inl ⟨he2.symm, he1.symm, h1⟩
  case _ h1 => exact absurd h (by simp)

theorem peekP_ok_elim {α : Type} {p : Parser α} {input r : List Char}
    {v : α} (h : peekP p input = .ok r v) :
    r = input ∧ ∃ r', p input = .ok r' v := by
  unfold peekP at h
  split at h
  case _ r0 a h1 =>
    simp only [PRes.ok.injEq] at h
    obtain ⟨he1, he2⟩ := h
    subst he2
    exact ⟨he1.symm, r0, h1⟩
  case _ h1 => exact absurd h (by simp)
  case _ h1 => exact absurd h (by simp)

theorem altP_ok_elim {α : Type} {p q : Parser α} {input r : List Char}
    {v : α} (h : altP p q input = .ok r v) :
    p input = .ok r v ∨ (p input = .fail ∧ q input = .ok r v) := by
  unfold altP at h
  rcases hres : p input with ⟨r0, a⟩ | _ | _ <;> rw [hres] at h
  · exact Or.inl h
  · exact Or.inr ⟨rfl, h⟩
  · exact PRes.noConfusion h

theorem verifyP_ok_elim {α : Type} {p : Parser α} {f : α → Bool}
    {input r : List Char} {v : α} (h : verifyP p f input = .ok r v) :
    p input = .ok r v ∧ f v = true := by
  unfold verifyP at h
  split at h
  case _ r0 a h1 =>
    split at h
    case _ hf =>
      simp only [PRes.ok.injEq] at h
      obtain ⟨he1, he2⟩ := h
      subst he1; subst he2
      exact ⟨h1, hf⟩
    case _ hf => exact absurd h (by simp)
  case _ h1 => exact absurd h (by simp)
  case _ h1 => exact absurd h (by simp)

theorem eofP_ok_elim {input r v : List Char} (h : eofP input = .ok r v) :
    input = [] := by
  unfold eofP at h
  cases input with
  | nil => rfl
  | cons c t => exact absurd h (by simp)

theorem bucket_sound (input r : List Char) (b : Bucket)
    (h : bucket input = .ok r b) :
    ValidBucket b ∧ input = renderBucket b ++ r := by
  obtain ⟨cv, hpair, hb⟩ := mapP_ok_elim h
  obtain ⟨r1, r2, cc, colon, v, hcc, hcolon, hv, hcv⟩ := sepPairP_ok_elim hpair
  subst hcv
  obtain ⟨hcne, hcmem, hceq, _⟩ := run1_sound _ input r1 cc hcc
  obtain ⟨hteq, _⟩ := tagP_sound [':'] r1 r2 colon hcolon
  obtain ⟨hvne, hvmem, hveq, _⟩ := run1_sound _ r2 r v hv
  subst hb
  refine ⟨⟨hcne, ?_, hvne, hvmem⟩, ?_⟩
  · intro c hc
    have := hcmem c hc
    simpa using this
  · rw [hceq, hteq, hveq, renderBucket]
    simp

theorem bucket_complete (b : Bucket) (r : List Char) (hb : ValidBucket b)
    (hr : r = [] ∨ ∃ c t, r = c :: t ∧ c.isDigit = false) :
    bucket (renderBucket b ++ r) = .ok r b := by
  obtain ⟨hcne, hcmem, hvne, hvmem⟩ := hb
  have hcc : isNotP [':', '\n'] (b.country_code ++ ':' :: (b.value ++ r)) =
      .ok (':' :: (b.value ++ r)) b.country_code := by
    apply run1_eq _ _ _ hcne
    · intro c hc
      simpa using hcmem c hc
    · exact Or.inr ⟨':', b.value ++ r, rfl, by simp⟩
  have hcolon : tagP [':'] (':' :: (b.value ++ r)) = .ok (b.value ++ r) [':'] := by
    have := tagP_self_append [':'] (b.value ++ r)
    simpa using this
  have hv : digit1 (b.value ++ r) = .ok r b.value :=
    run1_eq _ _ _ hvne hvmem hr
  unfold bucket mapP sepPairP
  rw [show renderBucket b ++ r = b.country_code ++ ':' :: (b.value ++ r) by
    simp [renderBucket]]
  rw [hcc]
  simp only [hcolon, hv]

theorem renderBucketTail_head (rest : List Bucket) (r : List Char)
    (hr : NlOrEof r) :
    renderBucketTail rest ++ r = [] ∨
      ∃ c t, renderBucketTail rest ++ r = c :: t ∧ c.isDigit = false := by
  cases rest with
  | nil =>
    rcases hr with rfl | ⟨t, rfl⟩
    · exact Or.inl rfl
    · exact Or.inr ⟨'\n', t, rfl, by decide⟩
  | cons b tail =>
    exact Or.inr ⟨',', renderBucket b ++ (renderBucketTail tail ++ r),
      by simp [renderBucketTail], by decide⟩

theorem sepList1Go_sound :
    ∀ fuel input r bs,
      sepList1Go (tagP [',']) bucket fuel input = .ok r bs →
      (∀ b ∈ bs, ValidBucket b) ∧ input = renderBucketTail bs ++ r := by
  intro fuel
  induction fuel with
  | zero => intro input r bs h; exact absurd h (by simp [sepList1Go])
  | succ f ih =>
    intro input r bs h
    unfold sepList1Go at h
    rcases hsep : tagP [','] input with ⟨r1, s⟩ | _ | _ <;>
      simp only [hsep] at h
    · by_cases hne : r1 = input
      · rw [if_pos hne] at h; exact absurd h (by simp)
      · rw [if_neg hne] at h
        rcases hb : bucket r1 with ⟨r2, a⟩ | _ | _ <;> simp only [hb] at h
        · rcases hrec : sepList1Go (tagP [',']) bucket f r2 with ⟨r', as⟩ | _ | _ <;>
            simp only [hrec] at h
          · simp only [PRes.ok.injEq] at h
            obtain ⟨rfl, rfl⟩ := h
            obtain ⟨hvas, heq2⟩ := ih _ _ _ hrec
            obtain ⟨hva, heq1⟩ := bucket_sound _ _ _ hb
            obtain ⟨heq0, _⟩ := tagP_sound _ _ _ _ hsep
            constructor
            · intro x hx
              rcases List.mem_cons.mp hx with rfl | hm
              · exact hva
              · exact hvas x hm
            · rw [heq0, heq1, heq2, renderBucketTail]
              simp
          · exact absurd h (by simp)
          · exact absurd h (by simp)
        · simp only [PRes.ok.injEq] at h
          obtain ⟨rfl, rfl⟩ := h
          exact ⟨by simp, by simp [renderBucketTail]⟩
        · exact absurd h (by simp)
    · simp only [PRes.ok.injEq] at h
      obtain ⟨rfl, rfl⟩ := h
      exact ⟨by simp, by simp [renderBucketTail]⟩
    · exact absurd h (by simp)

theorem tagP_comma_nlOrEof (r : List Char) (hr : NlOrEof r) :
    tagP [','] r = .fail := by
  rcases hr with rfl | ⟨t, rfl⟩
  · exact tagP_of_tagGo_none _ _ (tagGo_nil_none _ (by simp))
  · exact tagP_of_tagGo_none _ _ (tagGo_cons_ne _ _ _ _ (by decide))

theorem sepList1Go_complete :
    ∀ bs r fuel, (∀ b ∈ bs, ValidBucket b) → NlOrEof r →
      (renderBucketTail bs ++ r).length < fuel →
      sepList1Go (tagP [',']) bucket fuel (renderBucketTail bs ++ r) =
        .ok r bs := by
  intro bs
  induction bs with
  | nil =>
    intro r fuel _ hr hf
    cases fuel with
    | zero => omega
    | succ f =>
      simp only [renderBucketTail, List.nil_append]
      simp [sepList1Go, tagP_comma_nlOrEof r hr]
  | cons b rest ih =>
    intro r fuel hv hr hf
    cases fuel with
    | zero => omega
    | succ f =>
      have hb : bucket (renderBucket b ++ (renderBucketTail rest ++ r)) =
          .ok (renderBucketTail rest ++ r) b :=
        bucket_complete b _ (hv b (by simp)) (renderBucketTail_head rest r hr)
      have hlen : (renderBucketTail (b :: rest) ++ r).length =
          (renderBucket b).length + (renderBucketTail rest ++ r).length + 1 := by
        simp [renderBucketTail]
      have hrec := ih r f (fun x hx => hv x (by simp [hx])) hr (by omega)
      have hne : ¬(renderBucket b ++ (renderBucketTail rest ++ r) =
          ',' :: (renderBucket b ++ (renderBucketTail rest ++ r))) := by
        intro he
        have := congrArg List.length he
        simp at this
      have hsep : tagP [','] (',' :: (renderBucket b ++ (renderBucketTail rest ++ r))) =
          .ok (renderBucket b ++ (renderBucketTail rest ++ r)) [','] := by
        have := tagP_self_append [','] (renderBucket b ++ (renderBucketTail rest ++ r))
        simpa using this
      rw [show renderBucketTail (b :: rest) ++ r =
        ',' :: (renderBucket b ++ (renderBucketTail rest ++ r)) by
          simp [renderBucketTail]]
      unfold sepList1Go
      simp only [hsep, if_neg hne, hb, hrec]

theorem bucketed_flag_sound (input r : List Char) (bs : List Bucket)
    (h : bucketed_flag input = .ok r bs) :
    bs ≠ [] ∧ (∀ b ∈ bs, ValidBucket b) ∧
      input = renderBucketList bs ++ r ∧ NlOrEof r := by
  obtain ⟨r1, u, hlist, hpeek⟩ := terminatedP_ok_elim h
  obtain ⟨he, r2, halt⟩ := peekP_ok_elim hpeek
  subst he
  have hnl : NlOrEof r := by
    rcases altP_ok_elim halt with hnl | ⟨_, heof⟩
    · obtain ⟨hd, _⟩ := tagP_sound ['\n'] r _ _ hnl
      exact Or.inr ⟨r2, by simpa using hd⟩
    · exact Or.inl (eofP_ok_elim heof)
  unfold sepList1P at hlist
  rcases hb : bucket input with ⟨rb, b⟩ | _ | _ <;> simp only [hb] at hlist
  · rcases hgo : sepList1Go (tagP [',']) bucket (rb.length + 1) rb with
      ⟨r', as⟩ | _ | _ <;> simp only [hgo] at hlist
    · simp only [PRes.ok.injEq] at hlist
      obtain ⟨rfl, rfl⟩ := hlist
      obtain ⟨hva, heq1⟩ := bucket_sound _ _ _ hb
      obtain ⟨hvas, heq2⟩ := sepList1Go_sound _ _ _ _ hgo
      refine ⟨by simp, ?_, ?_, hnl⟩
      · intro x hx
        rcases List.mem_cons.mp hx with rfl | hm
        · exact hva
        · exact hvas x hm
      · rw [heq1, heq2, renderBucketList]
        simp
    · exact absurd hlist (by simp)
    · exact absurd hlist (by simp)
  · exact absurd hlist (by simp)
  · exact absurd hlist (by simp)

theorem bucketed_flag_complete (bs : List Bucket) (r : List Char)
    (hbs : bs ≠ []) (hv : ∀ b ∈ bs, ValidBucket b) (hr : NlOrEof r) :
    bucketed_flag (renderBucketList bs ++ r) = .ok r bs := by
  cases bs with
  | nil => exact absurd rfl hbs
  | cons b rest =>
    have hb : bucket (renderBucket b ++ (renderBucketTail rest ++ r)) =
        .ok (renderBucketTail rest ++ r) b :=
      bucket_complete b _ (hv b (by simp)) (renderBucketTail_head rest r hr)
    have hgo := sepList1Go_complete rest r ((renderBucketTail rest ++ r).length + 1)
      (fun x hx => hv x (by simp [hx])) hr (by omega)
    unfold bucketed_flag terminatedP sepList1P
    rw [show renderBucketList (b :: rest) ++ r =
      renderBucket b ++ (renderBucketTail rest ++ r) by
        simp [renderBucketList]]
    simp only [hb, hgo]
    rcases hr with rfl | ⟨t, rfl⟩
    · simp [peekP, altP, tagP, tagGo, eofP]
    · have hnl := tagP_self_append ['\n'] t
      simp only [List.singleton_append] at hnl
      simp [peekP, altP, hnl]

/-! ## Claim C2 -/

/-- C2 (counterexample): the claim admits a pipe character after the
bucket list, but the code's lookahead `peek(alt((tag("\n"), eof)))`
accepts only a newline or end of input.  On `"1:2|"` the prefix `"1:2"`
is a well-formed one-bucket list immediately followed by a pipe, yet
`bucketed_flag` fails. -/
theorem bucketed_flag_pipe_rejected :
    bucketed_flag (("1:2|").toList) = .fail ∧
    ("1:2|").toList = renderBucketList [⟨['1'], ['2']⟩] ++ ['|'] ∧
    ValidBucket ⟨['1'], ['2']⟩ ∧ NlPipeOrEof ['|'] := by
  refine ⟨by decide, by decide, by decide, Or.inr (Or.inr ⟨[], rfl⟩)⟩

/-- C2 (amended): `bucketed_flag` succeeds on an input exactly when the
input starts with a non-empty comma-separated list of `code:digits`
segments (code non-empty without `:`/newline, value non-empty
all-digits) immediately followed — without consuming it — by a newline
or the end of input (the pipe alternative of the original claim is not
accepted by the code). -/
theorem bucketed_flag_shape (input : List Char) :
    (∃ r bs, bucketed_flag input = .ok r bs) ↔
      ∃ bs r, bs ≠ [] ∧ (∀ b ∈ bs, ValidBucket b) ∧
        input = renderBucketList bs ++ r ∧ NlOrEof r := by
  constructor
  · rintro ⟨r, bs, h⟩
    obtain ⟨hne, hv, heq, hnl⟩ := bucketed_flag_sound input r bs h
    exact ⟨bs, r, hne, hv, heq, hnl⟩
  · rintro ⟨bs, r, hne, hv, heq, hnl⟩
    subst heq
    exact ⟨r, bs, bucketed_flag_complete bs r hne hv hnl⟩

/-- C2 (witness): the amended equivalence applied to the concrete input
`"1:2,3:4\nrest"`. -/
theorem bucketed_flag_shape_witness :
    ∃ r bs, bucketed_flag (("1:2,3:4\nrest").toList) = .ok r bs :=
  (bucketed_flag_shape (("1:2,3:4\nrest").toList)).mpr
    ⟨[⟨['1'], ['2']⟩, ⟨['3'], ['4']⟩], ('\n' :: ("rest").toList),
      by decide, by decide, by decide, Or.inr ⟨("rest").toList, rfl⟩⟩

/-! ## Claim C1 -/

/-- C1 (code bug): on a line with a key, no `enabled`/`disabled` marker
and no value text before the newline / end of input, the spec demands a
hard parse failure, but `key_maybe_enabled_value` reaches `v.unwrap()`
on `None` and panics (crash), instead of returning an error result. -/
theorem key_maybe_enabled_value_absent_value_crashes :
    key_maybe_enabled_value (("k: ").toList) = .crash ∧
    key_maybe_enabled_value (("k: \n").toList) = .crash ∧
    key_maybe_enabled_value (("k: \t \n").toList) = .crash := by
  refine ⟨by decide, by decide, by decide⟩

/-! ## Claim C3 -/

/-- C3 (code bug): when a matched digit run exceeds the target integer
type (`i32` year, `u32` month), the spec demands a hard failure result,
but `naive_date_time` calls `parse().unwrap()`, which panics (crash)
instead of returning a failure. -/
theorem naive_date_time_overflow_crashes :
    naive_date_time none (['/']) ([' ']) ([':']) (some [':']) none
        (("9999999999/01/23 12:34:56:789").toList) = .crash ∧
    naive_date_time none (['/']) ([' ']) ([':']) (some [':']) none
        (("1234/9999999999/23 12:34:56:789").toList) = .crash := by
  refine ⟨by decide, by decide⟩

/-! ## Claim C10 -/

/-- Buckets carried by a decoded `Value`. -/
def valueBuckets : Value → List Bucket
  | .Generic _ => []
  | .BucketedFlag bs => bs

/-- Buckets carried by a decoded `InfoEntry`. -/
def bucketsOf : InfoEntry → List Bucket
  | .KeyValue _ v => valueBuckets v
  | .KeyEnabledValue _ _ (some v) => valueBuckets v
  | .KeyEnabledValue _ _ none => []

theorem kmevValue_buckets (inp r2 : List Char) (w : Value)
    (h : kmevValue inp = .ok r2 w) : ∀ b ∈ valueBuckets w, ValidBucket b := by
  rcases altP_ok_elim h with hbf | ⟨_, hgen⟩
  · obtain ⟨bs, hbf', hw⟩ := mapP_ok_elim hbf
    subst hw
    obtain ⟨_, hval, _, _⟩ := bucketed_flag_sound _ _ _ hbf'
    simpa [valueBuckets] using hval
  · obtain ⟨s, _, hw⟩ := mapP_ok_elim hgen
    subst hw
    simp [valueBuckets]

/-- C10: every `Bucket` produced by `bucket`, `bucketed_flag`, or the
info-entry recognizer `key_maybe_enabled_value` has a non-empty
country code free of `:` and newline, and a non-empty all-digit value. -/
theorem bucket_invariants :
    (∀ input r b, bucket input = .ok r b → ValidBucket b) ∧
    (∀ input r bs, bucketed_flag input = .ok r bs → ∀ b ∈ bs, ValidBucket b) ∧
    (∀ input r e, key_maybe_enabled_value input = .ok r e →
      ∀ b ∈ bucketsOf e, ValidBucket b) := by
  refine ⟨?_, ?_, ?_⟩
  · intro input r b h
    exact (bucket_sound input r b h).1
  · intro input r bs h
    exact (bucketed_flag_sound input r bs h).2.1
  · intro input r e h
    unfold key_maybe_enabled_value at h
    rcases h0 : peekP (notP (tagP ['-', '-'])) input with ⟨i1, u0⟩ | _ | _ <;>
      simp only [h0] at h
    · rcases h1 : kmevKey i1 with ⟨i2, k⟩ | _ | _ <;> simp only [h1] at h
      · rcases h2 : optP kmevEnabled i2 with ⟨i3, en⟩ | _ | _ <;>
          simp only [h2] at h
        · rcases h3 : delimitedP space0 (optP kmevValue)
              (peekP (altP (tagP ['\n']) (altP (tagP ['|']) eofP))) i3 with
              ⟨i4, v⟩ | _ | _ <;> simp only [h3] at h
          · have hv : v = none ∨ ∃ w, v = some w ∧
                ∃ inp rr, kmevValue inp = .ok rr w := by
              unfold delimitedP at h3
              obtain ⟨r1, a1, hsp, hterm⟩ := precededP_ok_elim h3
              obtain ⟨r2, b2, hopt, hpk⟩ := terminatedP_ok_elim hterm
              rcases optP_ok_elim hopt with ⟨hn, _, _⟩ | ⟨w, hw, hkv⟩
              · exact Or.inl hn
              · exact Or.inr ⟨w, hw, r1, r2, hkv⟩
            cases en with
            | some e0 =>
              simp only [PRes.ok.injEq] at h
              obtain ⟨_, he⟩ := h
              subst he
              cases v with
              | none => simp [bucketsOf]
              | some w =>
                rcases hv with hn | ⟨w', hw', inp, rr, hkv⟩
                · exact absurd hn (by simp)
                · obtain hww : w' = w := by
                    simpa using hw'.symm
                  subst hww
                  simpa [bucketsOf] using kmevValue_buckets inp rr w' hkv
            | none =>
              cases v with
              | none => exact absurd h (by simp)
              | some w =>
                simp only [PRes.ok.injEq] at h
                obtain ⟨_, he⟩ := h
                subst he
                rcases hv with hn | ⟨w', hw', inp, rr, hkv⟩
                · exact absurd hn (by simp)
                · obtain hww : w' = w := by
                    simpa using hw'.symm
                  subst hww
                  simpa [bucketsOf] using kmevValue_buckets inp rr w' hkv
          · exact absurd h (by simp)
          · exact absurd h (by simp)
        · exact absurd h (by simp)
        · exact absurd h (by simp)
      · exact absurd h (by simp)
      · exact absurd h (by simp)
    · exact absurd h (by simp)
    · exact absurd h (by simp)

/-- C10 (witness): the invariants applied at concrete successful runs
of all three recognizers. -/
theorem bucket_invariants_witness :
    ValidBucket (Bucket.mk ['1'] ['2']) ∧
    (∀ b ∈ [Bucket.mk ['1'] ['2'], Bucket.mk ['*'] ['5']], ValidBucket b) ∧
    (∀ b ∈ bucketsOf (.KeyValue (("k").toList)
      (.BucketedFlag [Bucket.mk ['1'] ['2']])), ValidBucket b) := by
  refine ⟨?_, ?_, ?_⟩
  · exact bucket_invariants.1 (("1:2").toList) [] (Bucket.mk ['1'] ['2'])
      (by decide)
  · exact fun b hb => bucket_invariants.2.1 (("1:2,*:5").toList) []
      [Bucket.mk ['1'] ['2'], Bucket.mk ['*'] ['5']] (by decide) b hb
  · exact fun b hb => bucket_invariants.2.2 (("k: 1:2").toList) []
      (.KeyValue (("k").toList) (.BucketedFlag [Bucket.mk ['1'] ['2']]))
      (by decide) b hb

/-! ## Claim C6: the message-body recognizer -/

theorem lineChunk_cons_nl (l r : List Char) (hl : '\n' ∉ l) :
    lineChunk (l ++ '\n' :: r) = .ok r l := by
  have hnl : optP newlineP ('\n' :: r) = .ok r (some '\n') := by
    simp [optP, newlineP]
  cases l with
  | nil =>
    have hfail : isNotP ['\n'] ('\n' :: r) = .fail := by
      apply run1_fail
      simp [List.takeWhile_cons]
    have htu : takeUntilP ['\n'] ('\n' :: r) = .ok ('\n' :: r) [] := by
      unfold takeUntilP
      rw [if_pos (by simp [tagGo])]
    simp [lineChunk, terminatedP, altP, hfail, htu, hnl]
  | cons c t =>
    have hok : isNotP ['\n'] ((c :: t) ++ '\n' :: r) = .ok ('\n' :: r) (c :: t) := by
      apply run1_eq _ _ _ (by simp)
      · intro x hx
        have hxne : x ≠ '\n' := fun he => hl (he ▸ hx)
        simpa using hxne
      · exact Or.inr ⟨'\n', r, rfl, by simp⟩
    simp only [List.cons_append] at hok
    simp [lineChunk, terminatedP, altP, hok, hnl]

theorem lineChunk_whole (l : List Char) (hne : l ≠ []) (hl : '\n' ∉ l) :
    lineChunk l = .ok [] l := by
  have hok : isNotP ['\n'] (l ++ []) = .ok [] l := by
    apply run1_eq _ _ _ hne
    · intro x hx
      have hxne : x ≠ '\n' := fun he => hl (he ▸ hx)
      simpa using hxne
    · exact Or.inl rfl
  rw [List.append_nil] at hok
  simp [lineChunk, terminatedP, altP, hok, optP, newlineP]

theorem optP_newline_le (i2 r2 : List Char) (b2 : Option Char)
    (h : optP newlineP i2 = .ok r2 b2) : r2.length ≤ i2.length := by
  rcases optP_ok_elim h with ⟨_, rfl, _⟩ | ⟨a, _, hnl⟩
  · exact Nat.le_refl _
  · unfold newlineP at hnl
    split at hnl
    case _ r0 =>
      simp only [PRes.ok.injEq] at hnl
      obtain ⟨rfl, _⟩ := hnl
      simp
    case _ => exact absurd hnl (by simp)

theorem lineChunk_consumes :
    ∀ i r v, lineChunk i = .ok r v → r.length < i.length := by
  intro i r v h
  obtain ⟨r1, b, halt, hopt⟩ := terminatedP_ok_elim h
  have hle := optP_newline_le r1 r b hopt
  rcases altP_ok_elim halt with hin | ⟨_, htu⟩
  · obtain ⟨hvne, _, heq, _⟩ := run1_sound _ i r1 v hin
    have : r1.length < i.length := by
      rw [heq]
      simp
      cases v with
      | nil => exact absurd rfl hvne
      | cons c t => simp
    omega
  · obtain ⟨heq, hsome⟩ := takeUntilP_sound _ i r1 v htu
    rcases hg : tagGo ['\n'] r1 with _ | s
    · rw [hg] at hsome; exact absurd hsome (by simp)
    · have hr1 : r1 = '\n' :: s := by simpa using tagGo_sound _ _ _ hg
      subst hr1
      have : optP newlineP ('\n' :: s) = .ok s (some '\n') := by
        simp [optP, newlineP]
      rw [this] at hopt
      simp only [PRes.ok.injEq] at hopt
      obtain ⟨rfl, _⟩ := hopt
      rw [heq]
      simp
      omega

theorem msgStop_fail {O : Type} (M : Parser O) (input : List Char)
    (hne : input ≠ []) (hM : M input = .fail) :
    peekP (altP (valueP () M) (valueP () eofP)) input = .fail := by
  obtain ⟨c, t, rfl⟩ := List.exists_cons_of_ne_nil hne
  simp [peekP, altP, valueP, mapP, hM, eofP]

theorem msgStop_okM {O : Type} (M : Parser O) (input r : List Char) (v : O)
    (hM : M input = .ok r v) :
    peekP (altP (valueP () M) (valueP () eofP)) input = .ok input () := by
  simp [peekP, altP, valueP, mapP, hM]

theorem msgStop_nil {O : Type} (M : Parser O) (hcr : M [] ≠ .crash) :
    peekP (altP (valueP () M) (valueP () eofP)) [] = .ok [] () := by
  rcases hM : M [] with ⟨r, v⟩ | _ | _
  · simp [peekP, altP, valueP, mapP, hM]
  · simp [peekP, altP, valueP, mapP, hM, eofP]
  · exact absurd hM hcr

/-- C6: the message-body recognizer `message M` captures lines one at a
time and joins them with single newlines, stopping exactly where the
lookahead `M` matches (without consuming it) or at end of input: on
`l1 ++ "\n" ++ l2 ++ "\n" ++ rest` with `M` matching only at `rest` it
yields `l1 ++ "\n" ++ l2` with remainder `rest`, and on a single
newline-free line with no `M` match it yields the line with empty
remainder. -/
theorem message_spec {O : Type} (M : Parser O) (l1 l2 rest : List Char)
    (h1 : '\n' ∉ l1) (h2 : '\n' ∉ l2) :
    ((M (l1 ++ '\n' :: (l2 ++ '\n' :: rest)) = .fail) →
     (M (l2 ++ '\n' :: rest) = .fail) →
     (∃ r v, M rest = .ok r v) →
     message M (l1 ++ '\n' :: (l2 ++ '\n' :: rest)) = .ok rest (l1 ++ '\n' :: l2))
    ∧
    ((l1 ≠ []) → (M l1 = .fail) → (M [] ≠ .crash) →
     message M l1 = .ok [] l1) := by
  constructor
  · rintro hM1 hM2 ⟨r0, v0, hM3⟩
    have hstop1 := msgStop_fail M (l1 ++ '\n' :: (l2 ++ '\n' :: rest)) (by simp) hM1
    have hstop2 := msgStop_fail M (l2 ++ '\n' :: rest) (by simp) hM2
    have hstop3 := msgStop_okM M rest r0 v0 hM3
    have hl1 := lineChunk_cons_nl l1 (l2 ++ '\n' :: rest) h1
    have hl2 := lineChunk_cons_nl l2 rest h2
    have s1 := manyTillGo_step lineChunk
      (peekP (altP (valueP () M) (valueP () eofP))) lineChunk_consumes
      (l1 ++ '\n' :: (l2 ++ '\n' :: rest)) (l2 ++ '\n' :: rest) l1
      ((l1 ++ '\n' :: (l2 ++ '\n' :: rest)).length + 1) (by omega) hstop1 hl1
    have s2 := manyTillGo_step lineChunk
      (peekP (altP (valueP () M) (valueP () eofP))) lineChunk_consumes
      (l2 ++ '\n' :: rest) rest l2
      ((l2 ++ '\n' :: rest).length + 1) (by omega) hstop2 hl2
    have s3 := manyTillGo_stop lineChunk
      (peekP (altP (valueP () M) (valueP () eofP))) rest rest ()
      (rest.length + 1) (by omega) hstop3
    unfold message mapP manyTillP
    rw [s1, s2, s3]
    simp [List.intercalate, List.intersperse]
  · intro hne hM hcr
    have hstop1 := msgStop_fail M l1 hne hM
    have hstop2 := msgStop_nil M hcr
    have hl := lineChunk_whole l1 hne h1
    have s1 := manyTillGo_step lineChunk
      (peekP (altP (valueP () M) (valueP () eofP))) lineChunk_consumes
      l1 [] l1 (l1.length + 1) (by omega) hstop1 hl
    have s2 := manyTillGo_stop lineChunk
      (peekP (altP (valueP () M) (valueP () eofP))) [] [] ()
      (List.length ([] : List Char) + 1) (by omega) hstop2
    unfold message mapP manyTillP
    rw [s1, s2]
    simp [List.intercalate, List.intersperse]

/-- C6 (witness): the message-body property applied to the lookahead
`tag("NEXT")` on `"line1\nline2\nNEXT!"` and on the single line
`"line1"`. -/
theorem message_spec_witness :
    message (tagP (("NEXT").toList)) (("line1\nline2\nNEXT!").toList) =
      .ok (("NEXT!").toList) (("line1\nline2").toList) ∧
    message (tagP (("NEXT").toList)) (("line1").toList) =
      .ok [] (("line1").toList) := by
  constructor
  · have h := (message_spec (tagP (("NEXT").toList)) (("line1").toList)
      (("line2").toList) (("NEXT!").toList) (by decide) (by decide)).1
      (by decide) (by decide) ⟨("!").toList, ("NEXT").toList, by decide⟩
    have he1 : ("line1\nline2\nNEXT!").toList =
        ("line1").toList ++ '\n' :: (("line2").toList ++ '\n' :: ("NEXT!").toList) := by
      decide
    have he2 : ("line1\nline2").toList =
        ("line1").toList ++ '\n' :: ("line2").toList := by decide
    rw [he1, he2]
    exact h
  · exact (message_spec (tagP (("NEXT").toList)) (("line1").toList)
      [] [] (by decide) (by decide)).2 (by decide) (by decide) (by decide)

/-! ## Length / consumption lemmas for the iOS record recognizer -/

theorem dropWhile_len_le (p : Char → Bool) :
    ∀ l : List Char, (l.dropWhile p).length ≤ l.length := by
  intro l
  induction l with
  | nil => simp
  | cons c t ih =>
    rw [List.dropWhile_cons]
    by_cases h : p c
    · rw [if_pos h]
      simp only [List.length_cons]
      omega
    · simp [if_neg h]

theorem space0_res (i r v : List Char) (h : space0 i = .ok r v) :
    r = i.dropWhile isHSpace := by
  simp only [space0, PRes.ok.injEq] at h
  exact h.1.symm

theorem space0_le (i r v : List Char) (h : space0 i = .ok r v) :
    r.length ≤ i.length := by
  rw [space0_res i r v h]
  exact dropWhile_len_le _ _

theorem tagP_le (t i r v : List Char) (h : tagP t i = .ok r v) :
    r.length ≤ i.length := by
  obtain ⟨he, _⟩ := tagP_sound t i r v h
  rw [he]; simp

theorem run1_lt (p : Char → Bool) (i r v : List Char)
    (h : run1 p i = .ok r v) : r.length < i.length := by
  obtain ⟨hne, _, he, _⟩ := run1_sound p i r v h
  rw [he]
  cases v with
  | nil => exact absurd rfl hne
  | cons c t =>
    simp
    omega

theorem digit1_lt (i r v : List Char) (h : digit1 i = .ok r v) :
    r.length < i.length := run1_lt _ i r v h

theorem takeUntilP_le (t i r v : List Char) (h : takeUntilP t i = .ok r v) :
    r.length ≤ i.length := by
  obtain ⟨he, _⟩ := takeUntilP_sound t i r v h
  rw [he]; simp

theorem precededP_tag_digit1_lt (t i r v : List Char)
    (h : precededP (tagP t) digit1 i = .ok r v) : r.length < i.length := by
  obtain ⟨r1, a, ht, hd⟩ := precededP_ok_elim h
  have h1 := tagP_le t i r1 a ht
  have h2 := digit1_lt r1 r v hd
  omega

theorem mdhmsDigits_lt (s1 s2 s3 : List Char) (i r : List Char)
    (x : List Char × List Char × List Char × List Char × List Char)
    (h : mdhmsDigits s1 s2 s3 i = .ok r x) : r.length < i.length := by
  unfold mdhmsDigits at h
  rcases h1 : digit1 i with ⟨r1, mo⟩ | _ | _ <;> simp only [h1] at h
  · rcases h2 : precededP (tagP s1) digit1 r1 with ⟨r2, dy⟩ | _ | _ <;>
      simp only [h2] at h
    · rcases h3 : precededP (tagP s2) digit1 r2 with ⟨r3, hh⟩ | _ | _ <;>
        simp only [h3] at h
      · rcases h4 : precededP (tagP s3) digit1 r3 with ⟨r4, mi⟩ | _ | _ <;>
          simp only [h4] at h
        · rcases h5 : precededP (tagP s3) digit1 r4 with ⟨r5, ss⟩ | _ | _ <;>
            simp only [h5] at h
          · simp only [PRes.ok.injEq] at h
            obtain ⟨rfl, _⟩ := h
            have := digit1_lt i r1 mo h1
            have := precededP_tag_digit1_lt s1 r1 r2 dy h2
            have := precededP_tag_digit1_lt s2 r2 r3 hh h3
            have := precededP_tag_digit1_lt s3 r3 r4 mi h4
            have := precededP_tag_digit1_lt s3 r4 r5 ss h5
            omega
          · exact absurd h (by simp)
          · exact absurd h (by simp)
        · exact absurd h (by simp)
        · exact absurd h (by simp)
      · exact absurd h (by simp)
      · exact absurd h (by simp)
    · exact absurd h (by simp)
    · exact absurd h (by simp)
  · exact absurd h (by simp)
  · exact absurd h (by simp)

theorem ndtEnding_le (en : Option (List Char)) (dt : NaiveDateTime)
    (i r : List Char) (v : NaiveDateTime) (h : ndtEnding en dt i = .ok r v) :
    r.length ≤ i.length := by
  unfold ndtEnding at h
  cases en with
  | none =>
    simp only [PRes.ok.injEq] at h
    obtain ⟨rfl, _⟩ := h
    exact Nat.le_refl _
  | some e =>
    rcases ht : tagP e i with ⟨r1, a⟩ | _ | _ <;> simp only [ht] at h
    · simp only [PRes.ok.injEq] at h
      obtain ⟨rfl, _⟩ := h
      exact tagP_le e i r1 a ht
    · exact absurd h (by simp)
    · exact absurd h (by simp)

theorem ndtAfterYear_lt (s1 s2 s3 : List Char) (ms en : Option (List Char))
    (y : Int) (i r : List Char) (v : NaiveDateTime)
    (h : ndtAfterYear s1 s2 s3 ms en y i = .ok r v) : r.length < i.length := by
  unfold ndtAfterYear at h
  rcases h1 : mdhmsDigits s1 s2 s3 i with ⟨r1, x⟩ | _ | _ <;> simp only [h1] at h
  · obtain ⟨mo, dy, hh, mi, ss⟩ := x
    have hlt1 := mdhmsDigits_lt s1 s2 s3 i r1 _ h1
    rcases hmo : parseU32 mo with _ | month <;> simp only [hmo] at h
    · exact absurd h (by simp)
    · rcases hdy : parseU32 dy with _ | day <;> simp only [hdy] at h
      · exact absurd h (by simp)
      · by_cases hval : validYmd y month day
        · rw [if_pos hval] at h
          cases ms with
          | some msSep =>
            rcases h2 : precededP (tagP msSep) digit1 r1 with ⟨r2, msDs⟩ | _ | _ <;>
              simp only [h2] at h
            · have hlt2 := precededP_tag_digit1_lt msSep r1 r2 msDs h2
              rcases hh1 : parseU32 hh with _ | hv2 <;> simp only [hh1] at h
              · exact absurd h (by simp)
              · rcases hm1 : parseU32 mi with _ | mv <;> simp only [hm1] at h
                · exact absurd h (by simp)
                · rcases hs1 : parseU32 ss with _ | sv <;> simp only [hs1] at h
                  · exact absurd h (by simp)
                  · rcases hms1 : parseU32 msDs with _ | msv <;> simp only [hms1] at h
                    · exact absurd h (by simp)
                    · by_cases hvt : validHmsMilli hv2 mv sv msv
                      · rw [if_pos hvt] at h
                        have := ndtEnding_le en _ r2 r v h
                        omega
                      · rw [if_neg hvt] at h
                        exact absurd h (by simp)
            · exact absurd h (by simp)
            · exact absurd h (by simp)
          | none =>
            rcases hh1 : parseU32 hh with _ | hv2 <;> simp only [hh1] at h
            · exact absurd h (by simp)
            · rcases hm1 : parseU32 mi with _ | mv <;> simp only [hm1] at h
              · exact absurd h (by simp)
              · rcases hs1 : parseU32 ss with _ | sv <;> simp only [hs1] at h
                · exact absurd h (by simp)
                · by_cases hvt : validHmsMilli hv2 mv sv 0
                  · rw [if_pos hvt] at h
                    have := ndtEnding_le en _ r1 r v h
                    omega
                  · rw [if_neg hvt] at h
                    exact absurd h (by simp)
        · rw [if_neg hval] at h
          exact absurd h (by simp)
  · exact absurd h (by simp)
  · exact absurd h (by simp)

theorem naive_date_time_lt (ay : Option Int) (s1 s2 s3 : List Char)
    (ms en : Option (List Char)) (i r : List Char) (v : NaiveDateTime)
    (h : naive_date_time ay s1 s2 s3 ms en i = .ok r v) :
    r.length < i.length := by
  unfold naive_date_time at h
  cases ay with
  | some y => exact ndtAfterYear_lt s1 s2 s3 ms en y i r v h
  | none =>
    rcases h1 : terminatedP digit1 (tagP s1) i with ⟨r1, ds⟩ | _ | _ <;>
      simp only [h1] at h
    · obtain ⟨r0, b0, hd, ht⟩ := terminatedP_ok_elim h1
      have hlt1 := digit1_lt i r0 ds hd
      have hle1 := tagP_le s1 r0 r1 b0 ht
      rcases hp : parseI32 ds with _ | y <;> simp only [hp] at h
      · exact absurd h (by simp)
      · have := ndtAfterYear_lt s1 s2 s3 ms en y r1 r v h
        omega
    · exact absurd h (by simp)
    · exact absurd h (by simp)

theorem ios_level_lt (i r : List Char) (v : LogLevel)
    (h : Ios.level i = .ok r v) : r.length < i.length := by
  unfold Ios.level at h
  rcases h1 : isAP heartSet i with ⟨r1, g⟩ | _ | _ <;> simp only [h1] at h
  · rcases h2 : levelOfGlyphs g with _ | l <;> simp only [h2] at h
    · exact absurd h (by simp)
    · simp only [PRes.ok.injEq] at h
      obtain ⟨rfl, _⟩ := h
      exact run1_lt _ i _ g h1
  · exact absurd h (by simp)
  · exact absurd h (by simp)

theorem verify_takeUntil_le (t i r v : List Char) (f : List Char → Bool)
    (h : verifyP (takeUntilP t) f i = .ok r v) : r.length ≤ i.length := by
  obtain ⟨h1, _⟩ := verifyP_ok_elim h
  exact takeUntilP_le t i r v h1

theorem ios_bracketTag_le (i r : List Char) (v : LogEntryMetadata)
    (h : Ios.bracketTag i = .ok r v) : r.length ≤ i.length := by
  unfold Ios.bracketTag at h
  rcases h1 : tagP ['['] i with ⟨r1, a1⟩ | _ | _ <;> simp only [h1] at h
  · rcases h2 : takeUntilP [':'] r1 with ⟨r2, fl⟩ | _ | _ <;> simp only [h2] at h
    · rcases h3 : tagP [':'] r2 with ⟨r3, a3⟩ | _ | _ <;> simp only [h3] at h
      · rcases h4 : isNotP [' ', ']'] r3 with ⟨r4, ln⟩ | _ | _ <;>
          simp only [h4] at h
        · rcases h5 : space0 r4 with ⟨r5, a5⟩ | _ | _ <;> simp only [h5] at h
          · rcases h6 : altP (verifyP (takeUntilP [']', ':']) fun s => decide ('\n' ∉ s))
                (verifyP (takeUntilP [']', ' ']) fun s => decide ('\n' ∉ s)) r5 with
                ⟨r6, sy⟩ | _ | _ <;> simp only [h6] at h
            · rcases h7 : altP (tagP [']', ':']) (tagP [']', ' ']) r6 with
                  ⟨r7, a7⟩ | _ | _ <;> simp only [h7] at h
              · simp only [PRes.ok.injEq] at h
                obtain ⟨rfl, _⟩ := h
                have l1 := tagP_le _ _ _ _ h1
                have l2 := takeUntilP_le _ _ _ _ h2
                have l3 := tagP_le _ _ _ _ h3
                have l4 := run1_lt _ _ _ _ h4
                have l5 := space0_le _ _ _ h5
                have l6 : r6.length ≤ r5.length := by
                  rcases altP_ok_elim h6 with hx | ⟨_, hx⟩
                  · exact verify_takeUntil_le _ _ _ _ _ hx
                  · exact verify_takeUntil_le _ _ _ _ _ hx
                have l7 : r7.length ≤ r6.length := by
                  rcases altP_ok_elim h7 with hx | ⟨_, hx⟩
                  · exact tagP_le _ _ _ _ hx
                  · exact tagP_le _ _ _ _ hx
                omega
              · exact absurd h (by simp)
              · exact absurd h (by simp)
            · exact absurd h (by simp)
            · exact absurd h (by simp)
          · exact absurd h (by simp)
          · exact absurd h (by simp)
        · exact absurd h (by simp)
        · exact absurd h (by simp)
      · exact absurd h (by simp)
      · exact absurd h (by simp)
    · exact absurd h (by simp)
    · exact absurd h (by simp)
  · exact absurd h (by simp)
  · exact absurd h (by simp)

theorem ios_metadata_lt (i r : List Char)
    (v : NaiveDateTime × Option LogLevel × Option LogEntryMetadata)
    (h : Ios.metadata i = .ok r v) : r.length < i.length := by
  unfold Ios.metadata at h
  rcases h1 : naive_date_time none (['/']) ([' ']) ([':']) (some [':']) none i with
    ⟨r1, dt⟩ | _ | _ <;> simp only [h1] at h
  · rcases h2 : space0 r1 with ⟨r2, a2⟩ | _ | _ <;> simp only [h2] at h
    · rcases h3 : optP (terminatedP Ios.level space0) r2 with ⟨r3, lvl⟩ | _ | _ <;>
        simp only [h3] at h
      · rcases h4 : optP Ios.bracketTag r3 with ⟨r4, meta⟩ | _ | _ <;>
          simp only [h4] at h
        · simp only [PRes.ok.injEq] at h
          obtain ⟨rfl, _⟩ := h
          have l1 := naive_date_time_lt _ _ _ _ _ _ _ _ _ h1
          have l2 := space0_le _ _ _ h2
          have l3 : r3.length ≤ r2.length := by
            rcases optP_ok_elim h3 with ⟨_, rfl, _⟩ | ⟨a, _, hx⟩
            · exact Nat.le_refl _
            · obtain ⟨rx, bx, hlvl, hsp⟩ := terminatedP_ok_elim hx
              have := ios_level_lt _ _ _ hlvl
              have := space0_le _ _ _ hsp
              omega
          have l4 : r4.length ≤ r3.length := by
            rcases optP_ok_elim h4 with ⟨_, rfl, _⟩ | ⟨a, _, hx⟩
            · exact Nat.le_refl _
            · exact ios_bracketTag_le _ _ _ hx
          omega
        · exact absurd h (by simp)
        · exact absurd h (by simp)
      · exact absurd h (by simp)
      · exact absurd h (by simp)
    · exact absurd h (by simp)
    · exact absurd h (by simp)
  · exact absurd h (by simp)
  · exact absurd h (by simp)

theorem manyTillGo_le {α β : Type} (p : Parser α) (stop : Parser β)
    (hp : ∀ i r a, p i = .ok r a → r.length < i.length)
    (hstop : ∀ i r b, stop i = .ok r b → r = i) :
    ∀ fuel i r x, manyTillGo p stop fuel i = .ok r x → r.length ≤ i.length := by
  intro fuel
  induction fuel with
  | zero => intro i r x h; exact absurd h (by simp [manyTillGo])
  | succ f ih =>
    intro i r x h
    unfold manyTillGo at h
    rcases h1 : stop i with ⟨r1, b⟩ | _ | _ <;> simp only [h1] at h
    · simp only [PRes.ok.injEq] at h
      obtain ⟨rfl, _⟩ := h
      rw [hstop i r1 b h1]
    · rcases h2 : p i with ⟨r2, a⟩ | _ | _ <;> simp only [h2] at h
      · rcases h3 : manyTillGo p stop f r2 with ⟨r3, y⟩ | _ | _ <;>
          simp only [h3] at h
        · obtain ⟨as, b3⟩ := y
          simp only [PRes.ok.injEq] at h
          obtain ⟨rfl, _⟩ := h
          have := ih r2 r3 (as, b3) h3
          have := hp i r2 a h2
          omega
        · exact absurd h (by simp)
        · exact absurd h (by simp)
      · exact absurd h (by simp)
      · exact absurd h (by simp)
    · exact absurd h (by simp)

theorem message_le {O : Type} (M : Parser O) (i r v : List Char)
    (h : message M i = .ok r v) : r.length ≤ i.length := by
  unfold message manyTillP at h
  obtain ⟨x, hx, _⟩ := mapP_ok_elim h
  exact manyTillGo_le lineChunk _ lineChunk_consumes
    (fun i2 r2 b2 h2 => (peekP_ok_elim h2).1) _ i r x hx

theorem ios_log_entry_lt (i r : List Char) (v : LogEntry)
    (h : Ios.log_entry i = .ok r v) : r.length < i.length := by
  unfold Ios.log_entry at h
  rcases h1 : Ios.metadata i with ⟨r1, m⟩ | _ | _ <;> simp only [h1] at h
  · obtain ⟨dt, lvl, meta⟩ := m
    rcases h2 : space0 r1 with ⟨r2, a2⟩ | _ | _ <;> simp only [h2] at h
    · rcases h3 : message Ios.metadata r2 with ⟨r3, msg⟩ | _ | _ <;>
        simp only [h3] at h
      · simp only [PRes.ok.injEq] at h
        obtain ⟨rfl, _⟩ := h
        have := ios_metadata_lt _ _ _ h1
        have := space0_le _ _ _ h2
        have := message_le Ios.metadata _ _ _ h3
        omega
      · exact absurd h (by simp)
      · exact absurd h (by simp)
    · exact absurd h (by simp)
    · exact absurd h (by simp)
  · exact absurd h (by simp)
  · exact absurd h (by simp)

theorem ios_log_entry_head_digit (i r : List Char) (v : LogEntry)
    (h : Ios.log_entry i = .ok r v) :
    ∃ c t, i = c :: t ∧ c.isDigit = true := by
  unfold Ios.log_entry at h
  rcases h1 : Ios.metadata i with ⟨r1, m⟩ | _ | _ <;> simp only [h1] at h
  · unfold Ios.metadata at h1
    rcases h2 : naive_date_time none (['/']) ([' ']) ([':']) (some [':']) none i with
      ⟨r2, dt⟩ | _ | _ <;> simp only [h2] at h1
    · unfold naive_date_time at h2
      rcases h3 : terminatedP digit1 (tagP ['/']) i with ⟨r3, ds⟩ | _ | _ <;>
        simp only [h3] at h2
      · obtain ⟨r4, b4, hd, _⟩ := terminatedP_ok_elim h3
        obtain ⟨hne, hdig, he, _⟩ := run1_sound _ i r4 ds hd
        cases ds with
        | nil => exact absurd rfl hne
        | cons c t =>
          exact ⟨c, t ++ r4, by simpa using he, hdig c (by simp)⟩
      · exact absurd h2 (by simp)
      · exact absurd h2 (by simp)
    · exact absurd h1 (by simp)
    · exact absurd h1 (by simp)
  · exact absurd h (by simp)
  · exact absurd h (by simp)

/-! ## Claims C5 and C9: the iOS document assembler -/

theorem digit_not_mspace (c : Char) (h : c.isDigit = true) :
    isMSpace c = false := by
  by_contra hc
  have hms : isMSpace c = true := by simpa using hc
  simp only [isMSpace, Bool.or_eq_true, decide_eq_true_eq] at hms
  rcases hms with ((h1 | h1) | h1) | h1 <;> subst h1 <;>
    exact absurd h (by decide)

/-- C5: for any run of whitespace `w` and any input on which the iOS
record recognizer succeeds exactly `K` times through to the end of
input, the assembler `content` succeeds with empty remainder, an empty
`information` side, and exactly one section named `Logs` holding the
`K` decoded records in order, with no subsections. -/
theorem content_records (w input : List Char) (K : Nat) (es : List LogEntry)
    (hw : ∀ c ∈ w, isMSpace c = true)
    (hit : iterateP Ios.log_entry K input = .ok [] es) :
    Ios.content (w ++ input) = .ok []
      ⟨[], [Sec.mk (("Logs").toList) es []]⟩ ∧ es.length = K := by
  have hnil : Ios.log_entry [] = .fail := by decide
  have hlen := iterateP_length Ios.log_entry K input [] es hit
  refine ⟨?_, hlen⟩
  have hms : multispace0 (w ++ input) = .ok input w := by
    cases K with
    | zero =>
      obtain h1 : input = [] := by
        unfold iterateP at hit; cases hit; rfl
      subst h1
      obtain ⟨htw, hdw⟩ := takeWhile_append_sat isMSpace w [] hw (Or.inl rfl)
      simp only [List.append_nil] at htw hdw
      simp [multispace0, htw, hdw]
    | succ k =>
      unfold iterateP at hit
      rcases hpi : Ios.log_entry input with ⟨r1, a⟩ | _ | _ <;>
        simp only [hpi] at hit
      · obtain ⟨c, t, he, hd⟩ := ios_log_entry_head_digit input r1 a hpi
        subst he
        obtain ⟨htw, hdw⟩ := takeWhile_append_sat isMSpace w (c :: t) hw
          (Or.inr ⟨c, t, rfl, digit_not_mspace c hd⟩)
        simp [multispace0, htw, hdw]
      · exact absurd hit (by simp)
      · exact absurd hit (by simp)
  have hmany : many0Go Ios.log_entry (input.length + 1) input = .ok [] es :=
    many0Go_of_iterate Ios.log_entry ios_log_entry_lt hnil K input es hit
      (input.length + 1) (by omega)
  unfold Ios.content precededP
  simp only [hms]
  unfold mapP many0P
  simp only [hmany]

/-- C5 (witness): the assembler on whitespace followed by two concrete
well-formed records. -/
theorem content_records_witness :
    Ios.content ((" \n").toList ++
        ("1234/01/23 12:34:56:789 A\n1234/01/23 12:34:56:987 B").toList) =
      .ok [] ⟨[], [Sec.mk (("Logs").toList)
        [⟨("1234-01-23 12:34:56.789 UTC").toList, none, .Ios none, ['A']⟩,
         ⟨("1234-01-23 12:34:56.987 UTC").toList, none, .Ios none, ['B']⟩] []]⟩ ∧
    ([(⟨("1234-01-23 12:34:56.789 UTC").toList, none, .Ios none, ['A']⟩ : LogEntry),
      ⟨("1234-01-23 12:34:56.987 UTC").toList, none, .Ios none, ['B']⟩]).length = 2 :=
  content_records ((" \n").toList)
    (("1234/01/23 12:34:56:789 A\n1234/01/23 12:34:56:987 B").toList) 2
    [⟨("1234-01-23 12:34:56.789 UTC").toList, none, .Ios none, ['A']⟩,
     ⟨("1234-01-23 12:34:56.987 UTC").toList, none, .Ios none, ['B']⟩]
    (by decide) (by decide)

/-- C9 (counterexample): the claim says `content` always succeeds,
leaving unmatched text as the remainder; but on text whose leading
digit run overflows `i32` the record recognizer panics inside `many0`,
so `content` crashes instead of succeeding. -/
theorem content_crash_on_overflow :
    Ios.content (("9999999999/01/23 12:34:56:789 hi").toList) = .crash ∧
    ∀ r c, Ios.content (("9999999999/01/23 12:34:56:789 hi").toList) ≠
      .ok r c := by
  have h : Ios.content (("9999999999/01/23 12:34:56:789 hi").toList) = .crash := by
    rfl
  refine ⟨h, fun r c hc => ?_⟩
  rw [h] at hc
  exact PRes.noConfusion hc

/-- C9 (amended): `content` never returns a parse-error result; and
whenever the record recognizer fails (rather than panicking) on the
input with leading whitespace stripped, `content` succeeds with a
single empty `Logs` section and that stripped text as the unconsumed
remainder.  (It can, however, panic when a record prefix makes the
recognizer panic.) -/
theorem content_never_fails :
    (∀ input, Ios.content input ≠ .fail) ∧
    (∀ input, Ios.log_entry (input.dropWhile isMSpace) = .fail →
      Ios.content input = .ok (input.dropWhile isMSpace)
        ⟨[], [Sec.mk (("Logs").toList) [] []]⟩) := by
  constructor
  · intro input h
    have hms : multispace0 input =
        .ok (input.dropWhile isMSpace) (input.takeWhile isMSpace) := rfl
    unfold Ios.content precededP at h
    simp only [hms] at h
    unfold mapP many0P at h
    rcases hm : many0Go Ios.log_entry ((input.dropWhile isMSpace).length + 1)
        (input.dropWhile isMSpace) with ⟨r, as⟩ | _ | _ <;> simp only [hm] at h
    · exact absurd h (by simp)
    · exact absurd hm (many0Go_ne_fail Ios.log_entry ios_log_entry_lt _ _
        (by omega))
    · exact absurd h (by simp)
  · intro input hf
    have h0 := many0Go_fail_head Ios.log_entry (input.dropWhile isMSpace)
      ((input.dropWhile isMSpace).length + 1) (by omega) hf
    have hms : multispace0 input =
        .ok (input.dropWhile isMSpace) (input.takeWhile isMSpace) := rfl
    unfold Ios.content precededP
    simp only [hms]
    unfold mapP many0P
    simp only [h0]

/-- C9 (witness): the amended property at concrete inputs — `content`
does not fail on `"x"`, and succeeds with an empty section and full
remainder on `"hello world"`. -/
theorem content_never_fails_witness :
    Ios.content (("x").toList) ≠ .fail ∧
    Ios.content (("hello world").toList) = .ok (("hello world").toList)
      ⟨[], [Sec.mk (("Logs").toList) [] []]⟩ := by
  constructor
  · exact content_never_fails.1 (("x").toList)
  · have h := content_never_fails.2 (("hello world").toList) (by decide)
    have he : (("hello world").toList).dropWhile isMSpace =
        ("hello world").toList := by decide
    rw [he] at h
    exact h

/-! ## Claim C7: the section-header recognizer -/

theorem many0Go_tagEq :
    ∀ k r fuel, (r = [] ∨ ∃ c t, r = c :: t ∧ c ≠ '=') →
      (List.replicate k '=' ++ r).length < fuel →
      many0Go (tagP ['=']) fuel (List.replicate k '=' ++ r) =
        .ok r (List.replicate k (['='] : List Char)) := by
  intro k
  induction k with
  | zero =>
    intro r fuel hr hf
    cases fuel with
    | zero => omega
    | succ f =>
      have hfail : tagP ['='] r = .fail := by
        rcases hr with rfl | ⟨c, t, rfl, hc⟩
        · exact tagP_of_tagGo_none _ _ (tagGo_nil_none _ (by simp))
        · exact tagP_of_tagGo_none _ _ (tagGo_cons_ne _ _ _ _ (fun he => hc he.symm))
      simp [many0Go, hfail]
  | succ j ih =>
    intro r fuel hr hf
    cases fuel with
    | zero => omega
    | succ f =>
      have htag : tagP ['='] (List.replicate (j + 1) '=' ++ r) =
          .ok (List.replicate j '=' ++ r) ['='] := by
        have := tagP_self_append ['='] (List.replicate j '=' ++ r)
        simpa [List.replicate_succ] using this
      have hne : ¬(List.replicate j '=' ++ r = List.replicate (j + 1) '=' ++ r) := by
        intro heq
        have := congrArg List.length heq
        simp [List.replicate_succ] at this
      have hrec := ih r f hr (by
        have : (List.replicate (j + 1) '=' ++ r).length =
            (List.replicate j '=' ++ r).length + 1 := by
          simp [List.replicate_succ]
        omega)
      simp only [many0Go, htag, if_neg hne, hrec]
      simp [List.replicate_succ]

theorem many1_tagEq (m : Nat) (r : List Char) (hm : 1 ≤ m)
    (hr : r = [] ∨ ∃ c t, r = c :: t ∧ c ≠ '=') :
    many1P (tagP ['=']) (List.replicate m '=' ++ r) =
      .ok r (List.replicate m (['='] : List Char)) := by
  cases m with
  | zero => omega
  | succ j =>
    have htag : tagP ['='] (List.replicate (j + 1) '=' ++ r) =
        .ok (List.replicate j '=' ++ r) ['='] := by
      have := tagP_self_append ['='] (List.replicate j '=' ++ r)
      simpa [List.replicate_succ] using this
    have hrec := many0Go_tagEq j r ((List.replicate j '=' ++ r).length + 1) hr
      (by omega)
    unfold many1P many0P
    simp only [htag, hrec]
    simp [List.replicate_succ]

theorem dropWhile_eq_self_of_len (p : Char → Bool) (l : List Char)
    (h : (l.dropWhile p).length = l.length) : l.dropWhile p = l := by
  cases l with
  | nil => rfl
  | cons c t =>
    rw [List.dropWhile_cons]
    rw [List.dropWhile_cons] at h
    by_cases hc : p c
    · rw [if_pos hc] at h
      have := dropWhile_len_le p t
      simp at h
      omega
    · rw [if_neg hc]

theorem trimEnd_len_le (l : List Char) : (trimEnd l).length ≤ l.length := by
  unfold trimEnd
  have := dropWhile_len_le isRustWs l.reverse
  simpa using this

theorem trim_fix (name : List Char) (h : trimR name = name) :
    trimStart name = name ∧ trimEnd name = name := by
  unfold trimR at h
  have l1 : (trimStart name).length ≤ name.length := dropWhile_len_le _ _
  have l2 : (trimEnd (trimStart name)).length ≤ (trimStart name).length :=
    trimEnd_len_le _
  have l3 : (trimEnd (trimStart name)).length = name.length := by rw [h]
  have hlen : (name.dropWhile isRustWs).length = name.length := by
    have h4 : (trimStart name).length = name.length := by omega
    simpa [trimStart] using h4
  have hs : trimStart name = name := by
    have h5 := dropWhile_eq_self_of_len isRustWs name hlen
    simpa [trimStart] using h5
  rw [hs] at h
  exact ⟨hs, h⟩

theorem trimStart_head_not (c : Char) (t : List Char)
    (h : trimStart (c :: t) = c :: t) : isRustWs c = false := by
  by_contra hc
  have hcp : isRustWs c = true := by simpa using hc
  unfold trimStart at h
  rw [List.dropWhile_cons, if_pos hcp] at h
  have h1 := congrArg List.length h
  have h2 := dropWhile_len_le isRustWs t
  simp at h1
  omega

theorem trimEnd_append_ws (l sp : List Char)
    (hsp : ∀ c ∈ sp, isRustWs c = true) : trimEnd (l ++ sp) = trimEnd l := by
  unfold trimEnd
  rw [List.reverse_append]
  rw [dropWhile_append_sat isRustWs sp.reverse l.reverse
    (fun c hc => hsp c (by simpa using hc))]

theorem trim_append_space (name : List Char) (hne : name ≠ [])
    (h : trimR name = name) : trimR (name ++ [' ']) = name := by
  obtain ⟨hs, he⟩ := trim_fix name h
  obtain ⟨c, t, rfl⟩ := List.exists_cons_of_ne_nil hne
  have hc : isRustWs c = false := trimStart_head_not c t hs
  have h1 : trimStart ((c :: t) ++ [' ']) = (c :: t) ++ [' '] := by
    unfold trimStart
    simp only [List.cons_append, List.dropWhile_cons, hc]
    simp
  unfold trimR
  rw [h1, trimEnd_append_ws (c :: t) [' '] (by intro x hx; simp at hx; subst hx; decide)]
  exact he

theorem hspace_imp_rustws (c : Char) (h : isHSpace c = true) :
    isRustWs c = true := by
  simp only [isHSpace, Bool.or_eq_true, decide_eq_true_eq] at h
  rcases h with h1 | h1 <;> subst h1 <;> decide

theorem tagGo_single_none (c : Char) (a r : List Char) (hc : c ∉ a) :
    ∀ i, i < a.length → tagGo [c] (a.drop i ++ r) = none := by
  intro i hi
  have hne : a.drop i ≠ [] := by
    intro he
    have h1 := congrArg List.length he
    simp at h1
    omega
  obtain ⟨y, t, hyt⟩ := List.exists_cons_of_ne_nil hne
  have hy : y ∈ a := by
    have hmem : y ∈ a.drop i := by rw [hyt]; simp
    exact List.drop_subset i a hmem
  rw [hyt]
  simp only [List.cons_append]
  exact tagGo_cons_ne c y [] (t ++ r) (fun he => hc (he ▸ hy))

/-- C7 (counterexample): the claim requires the name only to be trimmed
of surrounding horizontal space, but Rust's `trim` strips all
whitespace.  The name `"\na"` is non-empty, `=`-free and horizontally
trimmed, yet `section-header("= \na =")` yields `"a"`, not `"\na"`. -/
theorem section_header_newline_name :
    section_header (("= \na =").toList) = .ok [] ['a'] ∧
    (['\n', 'a'] ≠ ([] : List Char)) ∧ '=' ∉ ['\n', 'a'] ∧
    List.takeWhile isHSpace ['\n', 'a'] = [] ∧
    List.takeWhile isHSpace (['\n', 'a'].reverse) = [] ∧
    ("= \na =").toList =
      List.replicate 1 '=' ++ ' ' :: (['\n', 'a'] ++ ' ' :: List.replicate 1 '=') ∧
    ['a'] ≠ ['\n', 'a'] := by
  refine ⟨by decide, by decide, by decide, by decide, by decide, by decide, by decide⟩

/-- C7 (amended): for decoration lengths m, n ≥ 1 and a non-empty
`=`-free name that is fully trimmed (Rust `trim` strips all whitespace,
not only horizontal space), the section-header recognizer on
`"="^m ++ " " ++ name ++ " " ++ "="^n` yields exactly the name with
empty remainder; the two decoration lengths need not be equal. -/
theorem section_header_spec (m n : Nat) (name : List Char)
    (hm : 1 ≤ m) (hn : 1 ≤ n) (hne : name ≠ [])
    (hnd : '=' ∉ name) (htrim : trimR name = name) :
    section_header
      (List.replicate m '=' ++ ' ' :: (name ++ ' ' :: List.replicate n '=')) =
      .ok [] name := by
  obtain ⟨hs, he⟩ := trim_fix name htrim
  obtain ⟨c, t, hct⟩ := List.exists_cons_of_ne_nil hne
  have hcw : isRustWs c = false := trimStart_head_not c t (hct ▸ hs)
  have hch : isHSpace c = false := by
    by_contra hx
    have : isHSpace c = true := by simpa using hx
    rw [hspace_imp_rustws c this] at hcw
    exact absurd hcw (by simp)
  have h1 : many1P (tagP ['='])
      (List.replicate m '=' ++ ' ' :: (name ++ ' ' :: List.replicate n '=')) =
      .ok (' ' :: (name ++ ' ' :: List.replicate n '='))
        (List.replicate m ['=']) :=
    many1_tagEq m _ hm (Or.inr ⟨' ', _, rfl, by decide⟩)
  have hsp1 : space0 (' ' :: (name ++ ' ' :: List.replicate n '=')) =
      .ok (name ++ ' ' :: List.replicate n '=') [' '] := by
    obtain ⟨htw, hdw⟩ := takeWhile_append_sat isHSpace [' ']
      (name ++ ' ' :: List.replicate n '=') (by intro x hx; simp at hx; subst hx; rfl)
      (Or.inr ⟨c, t ++ ' ' :: List.replicate n '=', by rw [hct]; simp, hch⟩)
    simp only [List.singleton_append] at htw hdw
    simp [space0, htw, hdw]
  have hsome : (tagGo ['='] (List.replicate n '=')).isSome = true := by
    cases n with
    | zero => omega
    | succ j =>
      simp [List.replicate_succ, tagGo]
  have htu : takeUntilP ['='] ((name ++ [' ']) ++ List.replicate n '=') =
      .ok (List.replicate n '=') (name ++ [' ']) :=
    takeUntilP_complete ['='] (name ++ [' ']) (List.replicate n '=') hsome
      (tagGo_single_none '=' (name ++ [' ']) (List.replicate n '=')
        (by simp [hnd]))
  have hmap : mapP (takeUntilP ['=']) trimR (name ++ ' ' :: List.replicate n '=') =
      .ok (List.replicate n '=') name := by
    unfold mapP
    rw [show name ++ ' ' :: List.replicate n '=' =
      (name ++ [' ']) ++ List.replicate n '=' by simp]
    simp only [htu]
    rw [trim_append_space name hne htrim]
  have hsp2 : space0 (List.replicate n '=') =
      .ok (List.replicate n '=') [] := by
    cases n with
    | zero => omega
    | succ j =>
      rw [List.replicate_succ]
      have h6 : isHSpace '=' = false := by decide
      simp [space0, List.takeWhile_cons, List.dropWhile_cons, h6]
  have h2 : many1P (tagP ['=']) (List.replicate n '=') =
      .ok [] (List.replicate n ['=']) := by
    have := many1_tagEq n [] hn (Or.inl rfl)
    simpa using this
  unfold section_header delimitedP ws delimitedP precededP terminatedP
  simp only [h1, hsp1, hmap, hsp2, h2]

/-- C7 (witness): the section-header property at `m = 2`, `n = 3`,
name `"Multiple Words"`. -/
theorem section_header_spec_witness :
    section_header (("== Multiple Words ===").toList) =
      .ok [] (("Multiple Words").toList) := by
  have h := section_header_spec 2 3 (("Multiple Words").toList)
    (by omega) (by omega) (by decide) (by decide) (by decide)
  have he : ("== Multiple Words ===").toList =
      List.replicate 2 '=' ++ ' ' ::
        ((("Multiple Words").toList) ++ ' ' :: List.replicate 3 '=') := by
    decide
  rw [he]
  exact h

/-! ## Claim C8: active-file selection -/

theorem getLast_filter_of_split (a : AppId) (pre : List LogFilename)
    (f : LogFilename) (post : List LogFilename) (hf : f.app_id = a)
    (hpost : ∀ g ∈ post, g.app_id ≠ a) :
    last_for_app_id (pre ++ f :: post) a = some f := by
  unfold last_for_app_id
  have hpostnil : List.filter (fun k => decide (k.app_id = a)) post = [] := by
    rw [List.filter_eq_nil_iff]
    intro g hg
    simpa using hpost g hg
  rw [List.filter_append, List.filter_cons]
  simp only [hf, hpostnil]
  rw [if_pos (by simp)]
  exact List.getLast?_concat _

theorem last_for_none_of_all (files : List LogFilename) (a : AppId)
    (h : ∀ g ∈ files, g.app_id ≠ a) : last_for_app_id files a = none := by
  unfold last_for_app_id
  have hnil : List.filter (fun k => decide (k.app_id = a)) files = [] := by
    rw [List.filter_eq_nil_iff]
    intro g hg
    simpa using h g hg
  simp [hnil]

theorem last_for_ne_none (files : List LogFilename) (a : AppId)
    (f0 : LogFilename) (hmem : f0 ∈ files) (ha : f0.app_id = a) :
    last_for_app_id files a ≠ none := by
  unfold last_for_app_id
  intro h
  have hmem2 : f0 ∈ List.filter (fun k => decide (k.app_id = a)) files :=
    List.mem_filter.mpr ⟨hmem, by simp [ha]⟩
  have hne : List.filter (fun k => decide (k.app_id = a)) files ≠ [] :=
    List.ne_nil_of_mem hmem2
  rw [List.getLast?_eq_none_iff] at h
  exact hne h

/-- C8: over the name-ordered key sequence of a non-empty batch, the
selection picks the last key with the Signal identifier; failing that,
the last with the NotificationServiceExtension identifier; failing
that, the last with the ShareAppExtension identifier — and it never
reaches the final panicking `unwrap`.  An empty batch (equivalently,
since every key carries one of the three identifiers, a batch in which
all three groups are empty) is rejected as invalid rather than
selected. -/
theorem select_active_spec (files : List LogFilename) :
    (files = [] → select_active_filename files = .invalidBatch) ∧
    (files ≠ [] →
      (∀ pre f post, files = pre ++ f :: post → f.app_id = .Signal →
        (∀ g ∈ post, g.app_id ≠ .Signal) →
        select_active_filename files = .selected f) ∧
      ((∀ g ∈ files, g.app_id ≠ .Signal) →
        ∀ pre f post, files = pre ++ f :: post →
          f.app_id = .NotificationServiceExtension →
          (∀ g ∈ post, g.app_id ≠ .NotificationServiceExtension) →
          select_active_filename files = .selected f) ∧
      ((∀ g ∈ files, g.app_id ≠ .Signal) →
        (∀ g ∈ files, g.app_id ≠ .NotificationServiceExtension) →
        ∀ pre f post, files = pre ++ f :: post →
          f.app_id = .ShareAppExtension →
          (∀ g ∈ post, g.app_id ≠ .ShareAppExtension) →
          select_active_filename files = .selected f) ∧
      select_active_filename files ≠ .panicked) ∧
    ((∀ g ∈ files, g.app_id ≠ .Signal ∧
        g.app_id ≠ .NotificationServiceExtension ∧
        g.app_id ≠ .ShareAppExtension) →
      select_active_filename files = .invalidBatch) := by
  refine ⟨?_, ?_, ?_⟩
  · intro h
    subst h
    rfl
  · intro hne
    have hemp : files.isEmpty = false := by
      cases files with
      | nil => exact absurd rfl hne
      | cons f0 rest => rfl
    refine ⟨?_, ?_, ?_, ?_⟩
    · intro pre f post hsp hf hpost
      have hl : last_for_app_id files .Signal = some f := by
        rw [hsp]; exact getLast_filter_of_split _ pre f post hf hpost
      simp [select_active_filename, hemp, hl]
    · intro hnoS pre f post hsp hf hpost
      have hl1 : last_for_app_id files .Signal = none :=
        last_for_none_of_all files _ hnoS
      have hl2 : last_for_app_id files .NotificationServiceExtension = some f := by
        rw [hsp]; exact getLast_filter_of_split _ pre f post hf hpost
      simp [select_active_filename, hemp, hl1, hl2]
    · intro hnoS hnoN pre f post hsp hf hpost
      have hl1 : last_for_app_id files .Signal = none :=
        last_for_none_of_all files _ hnoS
      have hl2 : last_for_app_id files .NotificationServiceExtension = none :=
        last_for_none_of_all files _ hnoN
      have hl3 : last_for_app_id files .ShareAppExtension = some f := by
        rw [hsp]; exact getLast_filter_of_split _ pre f post hf hpost
      simp [select_active_filename, hemp, hl1, hl2, hl3]
    · intro hp
      obtain ⟨f0, rest, rfl⟩ := List.exists_cons_of_ne_nil hne
      unfold select_active_filename at hp
      rw [if_neg (by simp)] at hp
      rcases hS : last_for_app_id (f0 :: rest) .Signal with _ | f <;>
        simp only [hS] at hp
      · rcases hN : last_for_app_id (f0 :: rest) .NotificationServiceExtension
            with _ | f <;> simp only [hN] at hp
        · rcases hE : last_for_app_id (f0 :: rest) .ShareAppExtension
              with _ | f <;> simp only [hE] at hp
          · cases hq : f0.app_id with
            | Signal =>
              exact last_for_ne_none (f0 :: rest) _ f0 (by simp) hq hS
            | NotificationServiceExtension =>
              exact last_for_ne_none (f0 :: rest) _ f0 (by simp) hq hN
            | ShareAppExtension =>
              exact last_for_ne_none (f0 :: rest) _ f0 (by simp) hq hE
          · exact absurd hp (by simp)
        · exact absurd hp (by simp)
      · exact absurd hp (by simp)
  · intro hall
    cases files with
    | nil => rfl
    | cons f0 rest =>
      obtain ⟨h1, h2, h3⟩ := hall f0 (by simp)
      cases hq : f0.app_id with
      | Signal => exact absurd hq h1
      | NotificationServiceExtension => exact absurd hq h2
      | ShareAppExtension => exact absurd hq h3

/-- C8 (witness): the selection on the spec's two examples —
`{Signal-a, Signal-b, Ext1-a}` picks `Signal-b`, and
`{Ext1-a, Ext2-a}` (no Signal buffer) picks `Ext1-a`. -/
theorem select_active_spec_witness :
    select_active_filename
      [⟨("Signal-a").toList, .Signal⟩, ⟨("Signal-b").toList, .Signal⟩,
       ⟨("Ext1-a").toList, .NotificationServiceExtension⟩] =
      .selected ⟨("Signal-b").toList, .Signal⟩ ∧
    select_active_filename
      [⟨("Ext1-a").toList, .NotificationServiceExtension⟩,
       ⟨("Ext2-a").toList, .ShareAppExtension⟩] =
      .selected ⟨("Ext1-a").toList, .NotificationServiceExtension⟩ := by
  constructor
  · exact ((select_active_spec _).2.1 (by simp)).1
      [⟨("Signal-a").toList, .Signal⟩] ⟨("Signal-b").toList, .Signal⟩
      [⟨("Ext1-a").toList, .NotificationServiceExtension⟩] rfl rfl (by decide)
  · exact ((select_active_spec _).2.1 (by simp)).2.1 (by decide)
      [] ⟨("Ext1-a").toList, .NotificationServiceExtension⟩
      [⟨("Ext2-a").toList, .ShareAppExtension⟩] rfl rfl (by decide)

/-! ## Claim C4: the bracketed-tag terminator in the iOS metadata -/

theorem bracketTag_colon (f l sym r : List Char)
    (hf : ':' ∉ f) (hl : l ≠ []) (hlc : ∀ c ∈ l, c ≠ ' ' ∧ c ≠ ']')
    (hsymh : sym = [] ∨ ∃ c t, sym = c :: t ∧ isHSpace c = false)
    (hsymnl : '\n' ∉ sym)
    (hnoocc : ∀ i, i < sym.length →
      tagGo [']', ':'] (sym.drop i ++ (']' :: ':' :: r)) = none) :
    Ios.bracketTag ('[' :: (f ++ ':' :: (l ++ ' ' :: (sym ++ ']' :: ':' :: r)))) =
      .ok r ⟨f, l, sym⟩ := by
  have h1 : tagP ['['] ('[' :: (f ++ ':' :: (l ++ ' ' :: (sym ++ ']' :: ':' :: r)))) =
      .ok (f ++ ':' :: (l ++ ' ' :: (sym ++ ']' :: ':' :: r))) ['['] := by
    have := tagP_self_append ['['] (f ++ ':' :: (l ++ ' ' :: (sym ++ ']' :: ':' :: r)))
    simpa using this
  have h2 : takeUntilP [':'] (f ++ ':' :: (l ++ ' ' :: (sym ++ ']' :: ':' :: r))) =
      .ok (':' :: (l ++ ' ' :: (sym ++ ']' :: ':' :: r))) f :=
    takeUntilP_complete [':'] f _ (by simp [tagGo])
      (tagGo_single_none ':' f _ hf)
  have h3 : tagP [':'] (':' :: (l ++ ' ' :: (sym ++ ']' :: ':' :: r))) =
      .ok (l ++ ' ' :: (sym ++ ']' :: ':' :: r)) [':'] := by
    have := tagP_self_append [':'] (l ++ ' ' :: (sym ++ ']' :: ':' :: r))
    simpa using this
  have h4 : isNotP [' ', ']'] (l ++ ' ' :: (sym ++ ']' :: ':' :: r)) =
      .ok (' ' :: (sym ++ ']' :: ':' :: r)) l := by
    apply run1_eq _ _ _ hl
    · intro c hc
      obtain ⟨hc1, hc2⟩ := hlc c hc
      simp [hc1, hc2]
    · exact Or.inr ⟨' ', _, rfl, by simp⟩
  have h5 : space0 (' ' :: (sym ++ ']' :: ':' :: r)) =
      .ok (sym ++ ']' :: ':' :: r) [' '] := by
    obtain ⟨htw, hdw⟩ := takeWhile_append_sat isHSpace [' ']
      (sym ++ ']' :: ':' :: r) (by intro x hx; simp at hx; subst hx; rfl)
      (by
        rcases hsymh with rfl | ⟨c, t, rfl, hc⟩
        · exact Or.inr ⟨']', ':' :: r, by simp, by decide⟩
        · exact Or.inr ⟨c, t ++ ']' :: ':' :: r, by simp, hc⟩)
    simp only [List.singleton_append] at htw hdw
    simp [space0, htw, hdw]
  have h6 : takeUntilP [']', ':'] (sym ++ ']' :: ':' :: r) =
      .ok (']' :: ':' :: r) sym :=
    takeUntilP_complete [']', ':'] sym _ (by simp [tagGo]) hnoocc
  have h6v : verifyP (takeUntilP [']', ':']) (fun s => decide ('\n' ∉ s))
      (sym ++ ']' :: ':' :: r) = .ok (']' :: ':' :: r) sym := by
    simp [verifyP, h6, hsymnl]
  have h7 : tagP [']', ':'] (']' :: ':' :: r) = .ok r [']', ':'] := by
    have := tagP_self_append [']', ':'] r
    simpa using this
  unfold Ios.bracketTag
  simp only [h1, h2, h3, h4, h5, altP, h6v, h7]

theorem bracketTag_space (f l sym r : List Char)
    (hf : ':' ∉ f) (hl : l ≠ []) (hlc : ∀ c ∈ l, c ≠ ' ' ∧ c ≠ ']')
    (hsymh : sym = [] ∨ ∃ c t, sym = c :: t ∧ isHSpace c = false)
    (hsymnl : '\n' ∉ sym)
    (hno1 : ∀ i, i ≤ (sym ++ ']' :: ' ' :: r).length →
      tagGo [']', ':'] ((sym ++ ']' :: ' ' :: r).drop i) = none)
    (hno2 : ∀ i, i < sym.length →
      tagGo [']', ' '] (sym.drop i ++ (']' :: ' ' :: r)) = none) :
    Ios.bracketTag ('[' :: (f ++ ':' :: (l ++ ' ' :: (sym ++ ']' :: ' ' :: r)))) =
      .ok r ⟨f, l, sym⟩ := by
  have h1 : tagP ['['] ('[' :: (f ++ ':' :: (l ++ ' ' :: (sym ++ ']' :: ' ' :: r)))) =
      .ok (f ++ ':' :: (l ++ ' ' :: (sym ++ ']' :: ' ' :: r))) ['['] := by
    have := tagP_self_append ['['] (f ++ ':' :: (l ++ ' ' :: (sym ++ ']' :: ' ' :: r)))
    simpa using this
  have h2 : takeUntilP [':'] (f ++ ':' :: (l ++ ' ' :: (sym ++ ']' :: ' ' :: r))) =
      .ok (':' :: (l ++ ' ' :: (sym ++ ']' :: ' ' :: r))) f :=
    takeUntilP_complete [':'] f _ (by simp [tagGo])
      (tagGo_single_none ':' f _ hf)
  have h3 : tagP [':'] (':' :: (l ++ ' ' :: (sym ++ ']' :: ' ' :: r))) =
      .ok (l ++ ' ' :: (sym ++ ']' :: ' ' :: r)) [':'] := by
    have := tagP_self_append [':'] (l ++ ' ' :: (sym ++ ']' :: ' ' :: r))
    simpa using this
  have h4 : isNotP [' ', ']'] (l ++ ' ' :: (sym ++ ']' :: ' ' :: r)) =
      .ok (' ' :: (sym ++ ']' :: ' ' :: r)) l := by
    apply run1_eq _ _ _ hl
    · intro c hc
      obtain ⟨hc1, hc2⟩ := hlc c hc
      simp [hc1, hc2]
    · exact Or.inr ⟨' ', _, rfl, by simp⟩
  have h5 : space0 (' ' :: (sym ++ ']' :: ' ' :: r)) =
      .ok (sym ++ ']' :: ' ' :: r) [' '] := by
    obtain ⟨htw, hdw⟩ := takeWhile_append_sat isHSpace [' ']
      (sym ++ ']' :: ' ' :: r) (by intro x hx; simp at hx; subst hx; rfl)
      (by
        rcases hsymh with rfl | ⟨c, t, rfl, hc⟩
        · exact Or.inr ⟨']', ' ' :: r, by simp, by decide⟩
        · exact Or.inr ⟨c, t ++ ']' :: ' ' :: r, by simp, hc⟩)
    simp only [List.singleton_append] at htw hdw
    simp [space0, htw, hdw]
  have h6 : takeUntilP [']', ':'] (sym ++ ']' :: ' ' :: r) = .fail :=
    takeUntilP_fail [']', ':'] _ hno1
  have h6b : takeUntilP [']', ' '] (sym ++ ']' :: ' ' :: r) =
      .ok (']' :: ' ' :: r) sym :=
    takeUntilP_complete [']', ' '] sym _ (by simp [tagGo]) hno2
  have h6v : verifyP (takeUntilP [']', ' ']) (fun s => decide ('\n' ∉ s))
      (sym ++ ']' :: ' ' :: r) = .ok (']' :: ' ' :: r) sym := by
    simp [verifyP, h6b, hsymnl]
  have h7a : tagP [']', ':'] (']' :: ' ' :: r) = .fail := by
    apply tagP_of_tagGo_none
    simp [tagGo]
  have h7b : tagP [']', ' '] (']' :: ' ' :: r) = .ok r [']', ' '] := by
    have := tagP_self_append [']', ' '] r
    simpa using this
  unfold Ios.bracketTag
  simp only [h1, h2, h3, h4, h5, altP, h6, verifyP, h6b]
  simp only [hsymnl, not_false_eq_true, decide_true_eq_true]
  simp [h7a, h7b]

theorem bracketTag_no_terminator (f l tail : List Char)
    (hf : ':' ∉ f) (hl : l ≠ []) (hlc : ∀ c ∈ l, c ≠ ' ' ∧ c ≠ ']')
    (hno1 : ∀ i, i ≤ (']' :: tail).length →
      tagGo [']', ':'] ((']' :: tail).drop i) = none)
    (hno2 : ∀ i, i ≤ (']' :: tail).length →
      tagGo [']', ' '] ((']' :: tail).drop i) = none) :
    Ios.bracketTag ('[' :: (f ++ ':' :: (l ++ ']' :: tail))) = .fail := by
  have h1 : tagP ['['] ('[' :: (f ++ ':' :: (l ++ ']' :: tail))) =
      .ok (f ++ ':' :: (l ++ ']' :: tail)) ['['] := by
    have := tagP_self_append ['['] (f ++ ':' :: (l ++ ']' :: tail))
    simpa using this
  have h2 : takeUntilP [':'] (f ++ ':' :: (l ++ ']' :: tail)) =
      .ok (':' :: (l ++ ']' :: tail)) f :=
    takeUntilP_complete [':'] f _ (by simp [tagGo])
      (tagGo_single_none ':' f _ hf)
  have h3 : tagP [':'] (':' :: (l ++ ']' :: tail)) =
      .ok (l ++ ']' :: tail) [':'] := by
    have := tagP_self_append [':'] (l ++ ']' :: tail)
    simpa using this
  have h4 : isNotP [' ', ']'] (l ++ ']' :: tail) = .ok (']' :: tail) l := by
    apply run1_eq _ _ _ hl
    · intro c hc
      obtain ⟨hc1, hc2⟩ := hlc c hc
      simp [hc1, hc2]
    · exact Or.inr ⟨']', _, rfl, by simp⟩
  have h5 : space0 (']' :: tail) = .ok (']' :: tail) [] := by
    have hH : isHSpace ']' = false := by decide
    simp [space0, List.takeWhile_cons, List.dropWhile_cons, hH]
  have h6 : takeUntilP [']', ':'] (']' :: tail) = .fail :=
    takeUntilP_fail [']', ':'] _ hno1
  have h6b : takeUntilP [']', ' '] (']' :: tail) = .fail :=
    takeUntilP_fail [']', ' '] _ hno2
  unfold Ios.bracketTag
  simp only [h1, h2, h3, h4, h5, altP, verifyP, h6, h6b]

theorem ios_metadata_bracket (input sp t : List Char) (dt : NaiveDateTime)
    (hts : naive_date_time none (['/']) ([' ']) ([':']) (some [':']) none input =
      .ok (sp ++ '[' :: t) dt)
    (hsp : ∀ c ∈ sp, isHSpace c = true) :
    Ios.metadata input =
      match optP Ios.bracketTag ('[' :: t) with
      | .ok r4 meta => .ok r4 (dt, none, meta)
      | .fail => .fail
      | .crash => .crash := by
  have hsp0 : space0 (sp ++ '[' :: t) = .ok ('[' :: t) sp := by
    obtain ⟨htw, hdw⟩ := takeWhile_append_sat isHSpace sp ('[' :: t) hsp
      (Or.inr ⟨'[', t, rfl, by decide⟩)
    simp [space0, htw, hdw]
  have hlv : Ios.level ('[' :: t) = .fail := by
    have hmem : (fun c => decide (c ∈ heartSet)) '[' = false := by decide
    have hfail : isAP heartSet ('[' :: t) = .fail := by
      apply run1_fail
      simp [List.takeWhile_cons, hmem]
    unfold Ios.level
    simp only [hfail]
  have hopt : optP (terminatedP Ios.level space0) ('[' :: t) =
      .ok ('[' :: t) none := by
    simp [optP, terminatedP, hlv]
  unfold Ios.metadata
  simp only [hts, hsp0, hopt]

/-- C4 (counterexample): the claim says the terminator after the
bracketed tag is optional; but when the closing `]` is followed by
neither `:` nor a space (here: end of input), the recognizer does not
yield the structured tag at all — it returns `meta = none` and leaves
the bracketed text unconsumed. -/
theorem metadata_tag_without_terminator :
    Ios.metadata (("1234/01/23 12:34:56:789 [a.b:1]").toList) =
      .ok (("[a.b:1]").toList)
        (⟨1234, 1, 23, 12, 34, 56, 789⟩, none, none) ∧
    ∀ r dt lvl m, Ios.metadata (("1234/01/23 12:34:56:789 [a.b:1]").toList) ≠
      .ok r (dt, lvl, some m) := by
  have h : Ios.metadata (("1234/01/23 12:34:56:789 [a.b:1]").toList) =
      .ok (("[a.b:1]").toList) (⟨1234, 1, 23, 12, 34, 56, 789⟩, none, none) := by
    decide
  refine ⟨h, fun r dt lvl m hc => ?_⟩
  rw [h] at hc
  simp at hc

/-- C4 (amended): the terminator after the bracketed structured tag is
mandatory, not optional.  When the closing `]` is immediately followed
by `:` or by a space, the recognizer yields the structured tag and
consumes that terminator; when it is followed by neither, the `opt`
fails as a whole: no structured tag is produced and the bracketed text
is left unconsumed (it becomes part of the message). -/
theorem metadata_terminator_spec (input sp f l sym r tail : List Char)
    (dt : NaiveDateTime) (hsp : ∀ c ∈ sp, isHSpace c = true)
    (hf : ':' ∉ f) (hl : l ≠ []) (hlc : ∀ c ∈ l, c ≠ ' ' ∧ c ≠ ']')
    (hsymh : sym = [] ∨ ∃ c t, sym = c :: t ∧ isHSpace c = false)
    (hsymnl : '\n' ∉ sym) :
    ((naive_date_time none (['/']) ([' ']) ([':']) (some [':']) none input =
        .ok (sp ++ '[' :: (f ++ ':' :: (l ++ ' ' :: (sym ++ ']' :: ':' :: r)))) dt) →
      (∀ i, i < sym.length →
        tagGo [']', ':'] (sym.drop i ++ (']' :: ':' :: r)) = none) →
      Ios.metadata input = .ok r (dt, none, some ⟨f, l, sym⟩)) ∧
    ((naive_date_time none (['/']) ([' ']) ([':']) (some [':']) none input =
        .ok (sp ++ '[' :: (f ++ ':' :: (l ++ ' ' :: (sym ++ ']' :: ' ' :: r)))) dt) →
      (∀ i, i ≤ (sym ++ ']' :: ' ' :: r).length →
        tagGo [']', ':'] ((sym ++ ']' :: ' ' :: r).drop i) = none) →
      (∀ i, i < sym.length →
        tagGo [']', ' '] (sym.drop i ++ (']' :: ' ' :: r)) = none) →
      Ios.metadata input = .ok r (dt, none, some ⟨f, l, sym⟩)) ∧
    ((naive_date_time none (['/']) ([' ']) ([':']) (some [':']) none input =
        .ok (sp ++ '[' :: (f ++ ':' :: (l ++ ']' :: tail))) dt) →
      (∀ i, i ≤ (']' :: tail).length →
        tagGo [']', ':'] ((']' :: tail).drop i) = none) →
      (∀ i, i ≤ (']' :: tail).length →
        tagGo [']', ' '] ((']' :: tail).drop i) = none) →
      Ios.metadata input =
        .ok ('[' :: (f ++ ':' :: (l ++ ']' :: tail))) (dt, none, none)) := by
  refine ⟨?_, ?_, ?_⟩
  · intro hts hnoocc
    have hb := bracketTag_colon f l sym r hf hl hlc hsymh hsymnl hnoocc
    rw [ios_metadata_bracket input sp _ dt hts hsp]
    simp [optP, hb]
  · intro hts hno1 hno2
    have hb := bracketTag_space f l sym r hf hl hlc hsymh hsymnl hno1 hno2
    rw [ios_metadata_bracket input sp _ dt hts hsp]
    simp [optP, hb]
  · intro hts hno1 hno2
    have hb := bracketTag_no_terminator f l tail hf hl hlc hno1 hno2
    rw [ios_metadata_bracket input sp _ dt hts hsp]
    simp [optP, hb]

/-- C4 (witness): the amended terminator property at concrete inputs —
a `]:` terminator is consumed and yields the tag, a `] ` terminator is
consumed and yields the tag, and a missing terminator yields no tag. -/
theorem metadata_terminator_spec_witness :
    Ios.metadata (("1234/01/23 12:34:56:789 [a.bc:12 sym]:REST").toList) =
      .ok (("REST").toList)
        (⟨1234, 1, 23, 12, 34, 56, 789⟩, none,
          some ⟨("a.bc").toList, ("12").toList, ("sym").toList⟩) ∧
    Ios.metadata (("1234/01/23 12:34:56:789 [a.bc:12 sym] REST").toList) =
      .ok (("REST").toList)
        (⟨1234, 1, 23, 12, 34, 56, 789⟩, none,
          some ⟨("a.bc").toList, ("12").toList, ("sym").toList⟩) ∧
    Ios.metadata (("1234/01/23 12:34:56:789 [a.bc:12]").toList) =
      .ok (("[a.bc:12]").toList)
        (⟨1234, 1, 23, 12, 34, 56, 789⟩, none, none) := by
  refine ⟨?_, ?_, ?_⟩
  · have h := (metadata_terminator_spec
      (("1234/01/23 12:34:56:789 [a.bc:12 sym]:REST").toList) [' ']
      (("a.bc").toList) (("12").toList) (("sym").toList)
      (("REST").toList) [] ⟨1234, 1, 23, 12, 34, 56, 789⟩
      (by decide) (by decide) (by decide) (by decide)
      (Or.inr ⟨'s', ("ym").toList, by decide, by decide⟩) (by decide)).1
      (by decide) (by decide)
    exact h
  · have h := (metadata_terminator_spec
      (("1234/01/23 12:34:56:789 [a.bc:12 sym] REST").toList) [' ']
      (("a.bc").toList) (("12").toList) (("sym").toList)
      (("REST").toList) [] ⟨1234, 1, 23, 12, 34, 56, 789⟩
      (by decide) (by decide) (by decide) (by decide)
      (Or.inr ⟨'s', ("ym").toList, by decide, by decide⟩) (by decide)).2.1
      (by decide) (by decide) (by decide)
    exact h
  · have h := (metadata_terminator_spec
      (("1234/01/23 12:34:56:789 [a.bc:12]").toList) [' ']
      (("a.bc").toList) (("12").toList) [] [] []
      ⟨1234, 1, 23, 12, 34, 56, 789⟩
      (by decide) (by decide) (by decide) (by decide)
      (Or.inl rfl) (by decide)).2.2
      (by decide) (by decide) (by decide)
    have he : ('[' :: ((("a.bc").toList) ++ ':' :: ((("12").toList) ++ ']' :: ([] : List Char)))) =
        ("[a.bc:12]").toList := by decide
    rw [he] at h
    exact h
